import Mathlib

/-!
Verification of the prompterizer schema derivation engine (transform.go).

The Go code is shallowly embedded: reflect types become the inductive GoType,
genai.Schema becomes the mutual inductive Schema family, struct tags become
StructTag, and the derivation functions marshalType, parseFieldParams,
toGenaiType, renderDescription, renderEnum, validateMarshaledFieldType and
MarshalResponseSchema are translated function by function.  Go strings are
Lean Strings; the Go standard library string operations used by the code
(strings.Split, strings.TrimSpace, strings.ReplaceAll, regexp scanning) are
reimplemented over character lists so that every definition evaluates inside
the kernel.
-/

namespace Prompterizer

/-! ## Go string library operations used by transform.go -/

/-- strings.Split(s, ",") on the character list level: splitting on a single
comma, keeping empty segments, and producing one (empty) segment for the
empty input list. -/
def splitCommaChars : List Char → List (List Char)
  | [] => [[]]
  | c :: rest =>
    if c = ',' then [] :: splitCommaChars rest
    else
      match splitCommaChars rest with
      | [] => [[c]]
      | g :: gs => (c :: g) :: gs

/-- strings.Split(s, ","). -/
def splitComma (s : String) : List String :=
  (splitCommaChars s.data).map (fun l => String.mk l)

/-- strings.TrimSpace on a character list: leading and trailing whitespace
characters are removed (ASCII whitespace; Go also trims a few rarer Unicode
space characters, which never appear in the annotations modelled here). -/
def trimChars (l : List Char) : List Char :=
  ((l.dropWhile Char.isWhitespace).reverse.dropWhile Char.isWhitespace).reverse

/-- strings.TrimSpace. -/
def trimString (s : String) : String :=
  String.mk (trimChars s.data)

/-- strings.ReplaceAll with a non-empty pattern, on character lists, with
explicit fuel.  Each step consumes at least one character of the subject, so
fuel equal to the subject length makes the function total and equal to the
leftmost, non-overlapping replacement Go performs.  (Go's behaviour for an
empty pattern, inserting the replacement between characters, is never
exercised: every pattern used by the renderer has the shape of a brace token
and is at least three characters long.) -/
def replaceAllChars (pat rep : List Char) : Nat → List Char → List Char
  | _, [] => []
  | 0, s => s
  | fuel + 1, c :: rest =>
    if pat ≠ [] ∧ pat.isPrefixOf (c :: rest) then
      rep ++ replaceAllChars pat rep fuel ((c :: rest).drop pat.length)
    else
      c :: replaceAllChars pat rep fuel rest

/-- strings.ReplaceAll(s, pat, rep). -/
def replaceAll (s pat rep : String) : String :=
  String.mk (replaceAllChars pat.data rep.data s.data.length s.data)

/-- Lookup in a Go map[string]string, modelled as an association list with
distinct keys. -/
def lookupVar : List (String × String) → String → Option String
  | [], _ => Option.none
  | (k, v) :: rest, key => if k = key then Option.some v else lookupVar rest key

/-- The variable mappings passed to the renderers. -/
abbrev Vars := List (String × String)

/-! ## genai.Type and genai.Schema -/

/-- genai.Type: the schema type enumeration of the google.golang.org/genai
library. -/
inductive GenaiType where
  | unspecified
  | string
  | number
  | integer
  | boolean
  | array
  | object
deriving DecidableEq, Repr

/-- The string value of each genai.Type constant, as printed by %s in the
error messages of transform.go. -/
def genaiTypeString : GenaiType → String
  | .unspecified => "TYPE_UNSPECIFIED"
  | .string => "STRING"
  | .number => "NUMBER"
  | .integer => "INTEGER"
  | .boolean => "BOOLEAN"
  | .array => "ARRAY"
  | .object => "OBJECT"

mutual
/-- genai.Schema, restricted to the fields transform.go writes: Type, Format,
Description, Nullable (a *bool: none models the nil pointer), Enum, Items, the
Properties map, Required, and PropertyOrdering (an Option so that a nil Go
slice, meaning the field was never set, is distinguishable from a set one;
transform.go only assigns it when non-empty). -/
inductive Schema where
  | mk (type : GenaiType) (format : String) (description : String)
      (nullable : Option Bool) (enum : List String) (items : SchemaOpt)
      (properties : SchemaProps)
      (required : List String) (propertyOrdering : Option (List String))
/-- A *genai.Schema that may be nil (the Items pointer). -/
inductive SchemaOpt where
  | none
  | some (s : Schema)
/-- The Properties map of a schema node, as an association list with distinct
keys (insertion replaces an existing key, as a Go map assignment does). -/
inductive SchemaProps where
  | nil
  | cons (name : String) (s : Schema) (rest : SchemaProps)
end

deriving instance DecidableEq for Schema, SchemaOpt, SchemaProps

def Schema.type : Schema → GenaiType
  | .mk t _ _ _ _ _ _ _ _ => t

def Schema.format : Schema → String
  | .mk _ f _ _ _ _ _ _ _ => f

def Schema.description : Schema → String
  | .mk _ _ d _ _ _ _ _ _ => d

def Schema.nullable : Schema → Option Bool
  | .mk _ _ _ n _ _ _ _ _ => n

def Schema.enum : Schema → List String
  | .mk _ _ _ _ e _ _ _ _ => e

def Schema.items : Schema → SchemaOpt
  | .mk _ _ _ _ _ i _ _ _ => i

def Schema.properties : Schema → SchemaProps
  | .mk _ _ _ _ _ _ p _ _ => p

def Schema.required : Schema → List String
  | .mk _ _ _ _ _ _ _ r _ => r

def Schema.propertyOrdering : Schema → Option (List String)
  | .mk _ _ _ _ _ _ _ _ po => po

/-- schema.Nullable = lo.ToPtr(true). -/
def Schema.setNullable : Schema → Option Bool → Schema
  | .mk t f d _ e i p r po, n => .mk t f d n e i p r po

/-- The three assignments transform.go performs on a freshly marshalled field
schema before inserting it into Properties: fieldSchema.Description,
fieldSchema.Format (lo.FromPtr of the optional format, so the empty string
when the format is absent) and fieldSchema.Enum. -/
def Schema.setFieldMeta : Schema → String → String → List String → Schema
  | .mk t _ _ n _ i p r po, d, f, e => .mk t f d n e i p r po

/-- The keys of a Properties map. -/
def SchemaProps.keys : SchemaProps → List String
  | .nil => []
  | .cons k _ rest => k :: keys rest

/-- Lookup in a Properties map. -/
def SchemaProps.lookup : SchemaProps → String → Option Schema
  | .nil, _ => Option.none
  | .cons k v rest, key => if k = key then Option.some v else lookup rest key

/-- Assignment schema.Properties[name] = s on a Go map: replaces the entry
for an existing key, appends a new entry otherwise. -/
def SchemaProps.insert : SchemaProps → String → Schema → SchemaProps
  | .nil, key, s => .cons key s .nil
  | .cons k v rest, key, s =>
    if k = key then .cons key s rest else .cons k v (insert rest key s)

/-- maps.Copy(dst, src): every entry of src is written into dst (src keys are
distinct, so the iteration order of the Go map does not affect the result). -/
def SchemaProps.copyFrom : SchemaProps → SchemaProps → SchemaProps
  | dst, .nil => dst
  | dst, .cons k v rest => SchemaProps.copyFrom (dst.insert k v) rest

/-! ## FieldParams and the annotation parser -/

/-- The struct tag of one Go field, restricted to the four keys transform.go
reads; a missing key is the empty string, as with reflect.StructTag.Get. -/
structure StructTag where
  prompt : String
  prompt_enum : String
  prompt_aliases : String
  prompt_description : String
deriving DecidableEq, Repr

/-- FieldParams from transform.go.  Go field names Name/Type/... are kept up
to capitalisation (Type is a Lean keyword). -/
structure FieldParams where
  name : String
  type : GenaiType
  format : Option String
  enum : List String
  description : String
  aliases : List String
  isRequired : Bool
deriving DecidableEq, Repr

/-- parseCommaSeparated from transform.go: nil for the empty tag, otherwise
split on commas and trim each part. -/
def parseCommaSeparated (tag : String) : List String :=
  if tag = "" then []
  else (splitComma tag).map trimString

/-- toGenaiType from transform.go: the five recognised kind tokens. -/
def toGenaiType (promptFieldType : String) : Except String GenaiType :=
  if promptFieldType = "string" then .ok .string
  else if promptFieldType = "bool" then .ok .boolean
  else if promptFieldType = "number" then .ok .number
  else if promptFieldType = "integer" then .ok .integer
  else if promptFieldType = "object" then .ok .object
  else .error ("unsupported field type " ++ promptFieldType)

/-- parseFieldParams from transform.go. Returns ok none when the field has no
prompt tag (the field is skipped), ok (some fp) on success, error otherwise. -/
def parseFieldParams (tag : StructTag) : Except String (Option FieldParams) :=
  let promptTag := tag.prompt
  if promptTag = "" then .ok Option.none
  else
    let promptTagParts := splitComma promptTag
    let isRequired : Bool := "required" ∈ promptTagParts
    let promptTagParts :=
      if isRequired then promptTagParts.filter (fun p => p ≠ "required")
      else promptTagParts
    if promptTagParts.length < 2 then
      .error "missing either prompt property name or type"
    else
      let fieldName := promptTagParts.getD 0 ""
      match toGenaiType (promptTagParts.getD 1 "") with
      | .error e => .error e
      | .ok fieldType =>
        let explicitFormat :=
          if promptTagParts.length > 2 then promptTagParts.getD 2 "" else ""
        let base : FieldParams :=
          ⟨fieldName, fieldType, Option.none, parseCommaSeparated tag.prompt_enum,
            tag.prompt_description, parseCommaSeparated tag.prompt_aliases, isRequired⟩
        let fp :=
          if explicitFormat ≠ "" then { base with format := Option.some explicitFormat }
          else if base.enum ≠ [] then { base with format := Option.some "enum" }
          else if base.type = .number then { base with format := Option.some "float" }
          else base
        .ok (Option.some fp)

/-! ## The description renderer -/

/-- The scan of regexp \x7b([^\x7d]+)\x7d over a character list, with fuel
(every recursive call consumes at least one character, so fuel equal to the
input length suffices).  Returns the captured groups, the identifiers between
the braces, in order of occurrence; matches are leftmost and
non-overlapping, exactly as Go's FindAllStringSubmatch produces them. -/
def findTokensAux : Nat → List Char → List (List Char)
  | 0, _ => []
  | _ + 1, [] => []
  | fuel + 1, c :: rest =>
    if c = '{' then
      let inner := rest.takeWhile (fun d => d ≠ '}')
      if inner.isEmpty then findTokensAux fuel rest
      else
        match rest.drop inner.length with
        | '}' :: after => inner :: findTokensAux fuel after
        | _ => findTokensAux fuel rest
    else findTokensAux fuel rest

/-- All template placeholder identifiers occurring in a description, in order
of occurrence. -/
def findTokens (s : String) : List String :=
  (findTokensAux s.data.length s.data).map (fun l => String.mk l)

/-- The literal brace token match[0] corresponding to a captured identifier
match[1]. -/
def tokenStr (id : String) : String :=
  "\x7b" ++ id ++ "\x7d"

/-- The error message of renderDescription. -/
def missingVarsMessage (missing : List String) : String :=
  "missing variables in description: " ++ String.intercalate ", " missing

/-- One iteration of the loop over regex matches in renderDescription: a
resolved identifier is substituted into the text with strings.ReplaceAll, an
unresolved one is recorded as missing and the text is left untouched. -/
def substituteStep (vars : Vars) (acc : String × List String) (id : String) :
    String × List String :=
  match lookupVar vars id with
  | Option.some value => (replaceAll acc.1 (tokenStr id) value, acc.2)
  | Option.none => (acc.1, acc.2 ++ [id])

/-- The alias sentence appended by renderDescription when aliases are
present. -/
def aliasSentence (aliases : List String) : String :=
  "Also commonly reported as " ++
    String.intercalate ", " (aliases.map (fun al => "\x27" ++ trimString al ++ "\x27")) ++ "."

/-- renderDescription from transform.go.  Returns the rendered text together
with the error (none on success); the text is returned in both cases, best
effort, with unresolved tokens not substituted. -/
def renderDescription (fieldParams : FieldParams) (vars : Vars) :
    String × Option String :=
  let state :=
    if fieldParams.description ≠ "" then
      let ms := findTokens fieldParams.description
      let folded := ms.foldl (substituteStep vars) (fieldParams.description, [])
      ([folded.1], folded.2)
    else (([] : List String), ([] : List String))
  let descriptionParts :=
    if fieldParams.aliases ≠ [] then state.1 ++ [aliasSentence fieldParams.aliases]
    else state.1
  let description := String.intercalate " " descriptionParts
  (description,
    if state.2 ≠ [] then Option.some (missingVarsMessage state.2) else Option.none)

/-! ## The enum renderer

renderEnum appears in the enum-rendering variant of transform.go in the
repository (src/unnamed/part_000); it resolves a single whole-string brace
token against the variable mapping.  Its Go signature returns an error that
is nil on every path, which the Except result mirrors. -/

/-- The anchored regexp ^\x7b(.+)\x7d$ of renderEnum: the whole string must
start with an opening brace, end with a closing brace, and have at least one
character between them; the dot does not match a newline.  Returns the
captured (greedy) group. -/
def wholeBraceMatch (s : String) : Option String :=
  match s.data with
  | '{' :: rest =>
    if 2 ≤ rest.length ∧ rest.getLast? = Option.some '}' ∧
        rest.dropLast.all (fun c => c ≠ '\n') then
      Option.some (String.mk rest.dropLast)
    else Option.none
  | _ => Option.none

/-- renderEnum from the enum-rendering variant of transform.go: a list with
zero or several entries passes through unchanged; a single entry of the
whole-string brace form is looked up in the variable mapping and, when found,
the mapped value is split on commas with each piece trimmed; when not found
the literal token (braces included) stays the single enum value.  No path
fails. -/
def renderEnum (fieldParams : FieldParams) (vars : Vars) :
    Except String (List String) :=
  if fieldParams.enum.length ≠ 1 then .ok fieldParams.enum
  else
    let enumValue := fieldParams.enum.getD 0 ""
    match wholeBraceMatch enumValue with
    | Option.some key =>
      match lookupVar vars key with
      | Option.some value => .ok (parseCommaSeparated value)
      | Option.none => .ok [enumValue]
    | Option.none => .ok [enumValue]

/-! ## Go types, fields and tags -/

/-- The signed and unsigned integer kinds of reflect that marshalType maps to
TypeInteger. -/
inductive GoIntKind where
  | int | int8 | int16 | int32 | int64
  | uint | uint8 | uint16 | uint32 | uint64 | uintptr
deriving DecidableEq, Repr

/-- The floating point kinds of reflect that marshalType maps to TypeNumber. -/
inductive GoFloatKind where
  | float32 | float64
deriving DecidableEq, Repr

def goIntKindString : GoIntKind → String
  | .int => "int" | .int8 => "int8" | .int16 => "int16"
  | .int32 => "int32" | .int64 => "int64"
  | .uint => "uint" | .uint8 => "uint8" | .uint16 => "uint16"
  | .uint32 => "uint32" | .uint64 => "uint64" | .uintptr => "uintptr"

def goFloatKindString : GoFloatKind → String
  | .float32 => "float32" | .float64 => "float64"

mutual
/-- A Go type as seen through reflect by marshalType: the kinds it
dispatches on.  slice models both reflect.Slice and reflect.Array, which
share one case in marshalType.  unsupported models every remaining kind
(map, chan, func, interface, complex, unsafe pointer), carrying the kind
string and the type string used in the error message. -/
inductive GoType where
  | string
  | bool
  | int (k : GoIntKind)
  | float (k : GoFloatKind)
  | ptr (elem : GoType)
  | slice (elem : GoType)
  | strct (name : String) (fields : GoFields)
  | unsupported (kindName : String) (typeName : String)
/-- One struct field as reflect presents it: name, exportedness, whether the
field is embedded (Anonymous), its tag and its type. -/
inductive GoField where
  | mk (name : String) (exported : Bool) (anonymous : Bool)
      (tag : StructTag) (type : GoType)
/-- The field list of a struct type, in declaration order. -/
inductive GoFields where
  | nil
  | cons (f : GoField) (rest : GoFields)
end

deriving instance DecidableEq for GoType, GoField, GoFields

def GoField.name : GoField → String
  | .mk n _ _ _ _ => n

def GoField.exported : GoField → Bool
  | .mk _ e _ _ _ => e

def GoField.anonymous : GoField → Bool
  | .mk _ _ a _ _ => a

def GoField.tag : GoField → StructTag
  | .mk _ _ _ t _ => t

def GoField.type : GoField → GoType
  | .mk _ _ _ _ t => t

def GoFields.toList : GoFields → List GoField
  | .nil => []
  | .cons f rest => f :: toList rest

/-- reflect.Type.String(), as far as the error messages need it. -/
def goTypeString : GoType → String
  | .string => "string"
  | .bool => "bool"
  | .int k => goIntKindString k
  | .float k => goFloatKindString k
  | .ptr e => "*" ++ goTypeString e
  | .slice e => "[]" ++ goTypeString e
  | .strct nm _ => nm
  | .unsupported _ tn => tn

/-- reflect.Kind.String(), as far as the error messages need it. -/
def goKindString : GoType → String
  | .string => "string"
  | .bool => "bool"
  | .int k => goIntKindString k
  | .float k => goFloatKindString k
  | .ptr _ => "ptr"
  | .slice _ => "slice"
  | .strct _ _ => "struct"
  | .unsupported kd _ => kd

/-! ## Kind-consistency validation -/

/-- The type mismatch message of validateMarshaledFieldType. -/
def typeMismatchMessage (fieldName : String) (marshaled declared : GenaiType) : String :=
  "type mismatch for field \x27" ++ fieldName ++ "\x27: Go type implies " ++
    genaiTypeString marshaled ++ ", but prompt tag specifies " ++ genaiTypeString declared

/-- validateMarshaledFieldType from transform.go: array nodes are unwrapped
through their Items, the innermost node's type must be specified and equal to
the declared kind.  (When an array node has a nil Items pointer the Go code
would dereference nil; that shape is never produced by marshalType — see
marshalType_arraySpine — and the model falls through to the comparison.) -/
def validateMarshaledFieldType : Schema → FieldParams → Except String Unit
  | .mk .array _ _ _ _ (.some i) _ _ _, fp => validateMarshaledFieldType i fp
  | s, fp =>
    if s.type ≠ .unspecified ∧ s.type = fp.type then .ok ()
    else .error (typeMismatchMessage fp.name s.type fp.type)

/-- The innermost non-array node reached by unwrapping Items, matching the
recursion of validateMarshaledFieldType. -/
def stripArrays : Schema → Schema
  | .mk .array _ _ _ _ (.some i) _ _ _ => stripArrays i
  | s => s

/-! ## lo.Uniq -/

/-- lo.Uniq: duplicates removed, first occurrence kept, order preserved. -/
def uniqAux (seen : List String) : List String → List String
  | [] => []
  | x :: rest =>
    if x ∈ seen then uniqAux seen rest else x :: uniqAux (seen ++ [x]) rest

def uniq (l : List String) : List String :=
  uniqAux [] l

/-! ## marshalType -/

/-- An empty schema node of a given type, genai.Schema with only Type set. -/
def bareSchema (t : GenaiType) : Schema :=
  .mk t "" "" Option.none [] .none .nil [] Option.none

mutual
/-- marshalType from transform.go: the recursive walk over a reflect type
that produces a schema node, dispatching on the type's kind.  Error strings
are built exactly as the fmt.Errorf calls build them, with %w appending the
wrapped error's text. -/
def marshalType : GoType → GenaiType → Vars → Except String Schema
  | .ptr elementType, promptType, descriptionVars =>
    match marshalType elementType promptType descriptionVars with
    | .error e => .error e
    | .ok schema => .ok (schema.setNullable (Option.some true))
  | .strct _ fields, promptType, descriptionVars =>
    if promptType ≠ .object then .ok (bareSchema promptType)
    else
      match marshalFields fields descriptionVars .nil [] [] with
      | .error e => .error e
      | .ok (props, propertyOrdering, required) =>
        let required := if required.length > 0 then uniq required else required
        let ordering :=
          if propertyOrdering.length > 0 then Option.some propertyOrdering
          else Option.none
        .ok (.mk .object "" "" Option.none [] .none props required ordering)
  | .slice elemType, promptType, descriptionVars =>
    match marshalType elemType promptType descriptionVars with
    | .error e =>
      .error ("error marshaling array/slice items of type " ++ goTypeString elemType ++ ": " ++ e)
    | .ok itemsSchema =>
      .ok (.mk .array "" "" Option.none [] (.some itemsSchema) .nil [] Option.none)
  | .string, _, _ => .ok (bareSchema .string)
  | .bool, _, _ => .ok (bareSchema .boolean)
  | .int _, _, _ => .ok (bareSchema .integer)
  | .float _, _, _ => .ok (bareSchema .number)
  | .unsupported kindName typeName, _, _ =>
    .error ("unsupported type kind for schema generation: " ++ kindName ++
      " (Go type: " ++ typeName ++ ")")

/-- The field loop of marshalType's struct case, carrying the Properties
map, the propertyOrdering slice and the Required slice it mutates. -/
def marshalFields : GoFields → Vars → SchemaProps → List String → List String →
    Except String (SchemaProps × List String × List String)
  | .nil, _, props, ordering, required => .ok (props, ordering, required)
  | .cons (.mk fname fexported fanonymous ftag ftype) rest, descriptionVars,
      props, ordering, required =>
    if fexported = false then
      marshalFields rest descriptionVars props ordering required
    else if fanonymous then
      match marshalType ftype .object descriptionVars with
      | .error e => .error ("error marshaling embedded field " ++ fname ++ ": " ++ e)
      | .ok embeddedSchema =>
        let ordering :=
          if (embeddedSchema.propertyOrdering.getD []).length > 0 then
            ordering ++ embeddedSchema.propertyOrdering.getD []
          else ordering
        let props := props.copyFrom embeddedSchema.properties
        let required :=
          if embeddedSchema.required.length > 0 then required ++ embeddedSchema.required
          else required
        marshalFields rest descriptionVars props ordering required
    else
      match parseFieldParams ftag with
      | .error e => .error ("failed to parse field params for " ++ fname ++ ": " ++ e)
      | .ok Option.none => marshalFields rest descriptionVars props ordering required
      | .ok (Option.some fieldParams) =>
        match marshalType ftype fieldParams.type descriptionVars with
        | .error e =>
          .error ("error marshaling property " ++ fieldParams.name ++ " (Go field " ++
            fname ++ ", type " ++ goTypeString ftype ++ "): " ++ e)
        | .ok fieldSchema =>
          match validateMarshaledFieldType fieldSchema fieldParams with
          | .error e => .error e
          | .ok _ =>
            match renderDescription fieldParams descriptionVars with
            | (_, Option.some e) =>
              .error ("error rendering description for " ++ fieldParams.name ++ ": " ++ e)
            | (description, Option.none) =>
              let fieldSchema :=
                fieldSchema.setFieldMeta description (fieldParams.format.getD "")
                  fieldParams.enum
              let props := props.insert fieldParams.name fieldSchema
              let ordering := ordering ++ [fieldParams.name]
              let required :=
                if fieldParams.isRequired then required ++ [fieldParams.name]
                else required
              marshalFields rest descriptionVars props ordering required
end

/-- MarshalResponseSchema from transform.go: nil input is rejected, one
pointer level is unwrapped for the struct check only, and marshalType runs on
the original type. -/
def MarshalResponseSchema (v : Option GoType) (descriptionVars : Vars) :
    Except String Schema :=
  match v with
  | Option.none => .error "input value for schema generation cannot be nil"
  | Option.some vTypeOrig =>
    let vType := match vTypeOrig with | .ptr e => e | t => t
    match vType with
    | .strct _ _ => marshalType vTypeOrig .object descriptionVars
    | _ =>
      .error ("input value for schema generation must be a struct, got " ++
        goKindString vType)

/-! ## Specification-side definitions

The following definitions restate, in the spec's words, what the derived
tree is supposed to look like; the claim theorems connect them to the code
embedding above. -/

mutual
/-- The declaration-order list of annotated property names of a type, with an
embedded struct's fields contributing their own sub-order contiguously at
the embedding point, unexported and untagged fields skipped, and one pointer
indirection looked through.  This is the ordering the specification promises
for propertyOrdering. -/
def declaredOrdering : GoType → List String
  | .ptr e => declaredOrdering e
  | .strct _ fs => declaredFieldsOrdering fs
  | _ => []
/-- declaredOrdering over a field list, in declaration order. -/
def declaredFieldsOrdering : GoFields → List String
  | .nil => []
  | .cons (.mk _ fexported fanonymous ftag ftype) rest =>
    (if fexported = false then []
     else if fanonymous then declaredOrdering ftype
     else
       match parseFieldParams ftag with
       | .ok (Option.some fp) => [fp.name]
       | _ => []) ++ declaredFieldsOrdering rest
end

mutual
/-- The number of annotated fields of a type, embedded structs counted
recursively through their own fields. -/
def annotatedFieldCount : GoType → Nat
  | .ptr e => annotatedFieldCount e
  | .strct _ fs => annotatedFieldsCount fs
  | _ => 0
/-- annotatedFieldCount over a field list. -/
def annotatedFieldsCount : GoFields → Nat
  | .nil => 0
  | .cons (.mk _ fexported fanonymous ftag ftype) rest =>
    (if fexported = false then 0
     else if fanonymous then annotatedFieldCount ftype
     else
       match parseFieldParams ftag with
       | .ok (Option.some _) => 1
       | _ => 0) + annotatedFieldsCount rest
end

/-- A Go slice that is assigned only when non-empty: the nil slice for the
empty list, the list itself otherwise. -/
def listToOpt (l : List String) : Option (List String) :=
  if l = [] then Option.none else Option.some l

/-- No duplicate entries, as a Boolean. -/
def listNodupB : List String → Bool
  | [] => true
  | x :: rest => if x ∈ rest then false else listNodupB rest

mutual
/-- The per-tree invariant of claim C8, checked at every node: an object
node's required list has no duplicates, every required name is a key of its
properties, and propertyOrdering is set only when non-empty; all children
(items and property values) satisfy the same. -/
def schemaInvB : Schema → Bool
  | .mk ty _ _ _ _ items props req po =>
    (if ty = .object then
      listNodupB req && req.all (fun r => decide (r ∈ props.keys)) &&
        (match po with
         | Option.some l => !l.isEmpty
         | Option.none => true)
     else true) &&
      schemaOptInvB items && schemaPropsInvB props
/-- schemaInvB through an optional child. -/
def schemaOptInvB : SchemaOpt → Bool
  | .none => true
  | .some s => schemaInvB s
/-- schemaInvB over all property values. -/
def schemaPropsInvB : SchemaProps → Bool
  | .nil => true
  | .cons _ s rest => schemaInvB s && schemaPropsInvB rest
end

/-- Every array node on the Items spine has an items child, and the innermost
non-array node's type is specified: the shape validateMarshaledFieldType
relies on. -/
def arraySpineB : Schema → Bool
  | .mk .array _ _ _ _ (.some i) _ _ _ => arraySpineB i
  | .mk .array _ _ _ _ .none _ _ _ => false
  | s => decide (s.type ≠ .unspecified ∧ s.type ≠ .array)

/-- The comma-separated parts of a primary tag after removing every
"required" token, the list positional parsing runs on. -/
def strippedParts (l : List String) : List String :=
  if "required" ∈ l then l.filter (fun p => p ≠ "required") else l

/-- The identifiers of a token list that the variable mapping does not
resolve, in order of occurrence. -/
def missingTokens (vars : Vars) (tokens : List String) : List String :=
  tokens.filter (fun id => (lookupVar vars id).isNone)

/-- The best-effort substitution the spec describes: only the resolved
tokens are substituted (in order of occurrence), unresolved tokens are not
touched by any substitution step. -/
def resolvedSubstitution (vars : Vars) (desc : String) (tokens : List String) : String :=
  (tokens.filter (fun id => (lookupVar vars id).isSome)).foldl
    (fun text id => replaceAll text (tokenStr id) ((lookupVar vars id).getD "")) desc

/-! ## Concrete fixtures used to instantiate the theorems -/

/-- An empty struct tag. -/
def noTag : StructTag := ⟨"", "", "", ""⟩

/-- A model of time.Time: a struct whose fields are all unexported. -/
def timeTimeFix : GoType :=
  .strct "time.Time" (.cons (.mk "wall" false false noTag (.int .uint64)) .nil)

/-- A struct with a struct-typed field annotated with a non-object kind. -/
def docFix : GoType :=
  .strct "Doc"
    (.cons (.mk "DocumentDate" true false ⟨"documentDate,string", "", "", ""⟩ timeTimeFix)
      .nil)

/-- An embedded struct with two annotated fields, the first required. -/
def innerFix : GoType :=
  .strct "Inner"
    (.cons (.mk "A1" true false ⟨"a1,string,required", "", "", ""⟩ .string)
      (.cons (.mk "A2" true false ⟨"a2,bool", "", "", ""⟩ .bool) .nil))

/-- A struct embedding innerFix between two annotated fields, with an
unexported and an untagged field that must be skipped. -/
def outerFix : GoType :=
  .strct "Outer"
    (.cons (.mk "X" true false ⟨"x,string,required", "", "", ""⟩ .string)
      (.cons (.mk "Inner" true true noTag innerFix)
        (.cons (.mk "hidden" false false ⟨"h,string", "", "", ""⟩ .string)
          (.cons (.mk "Ignored" true false noTag .string)
            (.cons (.mk "Y" true false ⟨"y,bool", "", "", ""⟩ .bool) .nil)))))

/-- A struct whose own required field collides with a required field of its
embedded struct, producing a duplicate required entry before deduplication. -/
def dupFix : GoType :=
  .strct "Dup"
    (.cons (.mk "Inner" true true noTag innerFix)
      (.cons (.mk "B1" true false ⟨"a1,string,required", "", "", ""⟩ .string) .nil))

/-! ## Helper lemmas -/

/-- Marshalling a struct with declared kind object always yields an object
node with no nullable marker (nullable is only set by the pointer case). -/
theorem marshalType_strct_object_shape (nm : String) (fs : GoFields) (vars : Vars)
    (s : Schema) (h : marshalType (.strct nm fs) .object vars = .ok s) :
    s.type = .object ∧ s.nullable = Option.none := by
  rw [marshalType] at h
  simp only [ne_eq, not_true_eq_false, if_false, reduceIte] at h
  cases hm : marshalFields fs vars .nil [] [] with
  | error e => rw [hm] at h; exact absurd h (by simp)
  | ok triple =>
    obtain ⟨props, ord, req⟩ := triple
    rw [hm] at h
    simp only [Except.ok.injEq] at h
    subst h
    exact ⟨rfl, rfl⟩

end Prompterizer

namespace Prompterizer

/-! ## Claim theorems -/

/-- Claim C4: for every annotated field carrying an enum list, the enum
renderer passes a list of zero or several entries through unchanged; a
single whole-string brace token is expanded to the mapped value split on
commas with each piece trimmed when the identifier is mapped, and falls back
to the literal token (braces included) when it is not; and no input makes
the renderer fail. -/
theorem renderEnum_spec (fp : FieldParams) (vars : Vars) :
    (fp.enum.length ≠ 1 → renderEnum fp vars = .ok fp.enum) ∧
    (∀ e id v, fp.enum = [e] → wholeBraceMatch e = Option.some id →
      lookupVar vars id = Option.some v →
      renderEnum fp vars = .ok (parseCommaSeparated v)) ∧
    (∀ e id, fp.enum = [e] → wholeBraceMatch e = Option.some id →
      lookupVar vars id = Option.none →
      renderEnum fp vars = .ok [e]) ∧
    (∃ l, renderEnum fp vars = .ok l) := by
  refine ⟨fun h => by simp [renderEnum, h], ?_, ?_, ?_⟩
  · intro e id v he hid hv
    simp [renderEnum, he, hid, hv]
  · intro e id he hid hv
    simp [renderEnum, he, hid, hv]
  · by_cases h : fp.enum.length = 1
    · cases hb : wholeBraceMatch (fp.enum.getD 0 "") with
      | none =>
        exact ⟨[fp.enum.getD 0 ""],
          by rw [renderEnum, if_neg (show ¬fp.enum.length ≠ 1 by simp [h])]
             simp only [hb]⟩
      | some key =>
        cases hl : lookupVar vars key with
        | none =>
          exact ⟨[fp.enum.getD 0 ""],
            by rw [renderEnum, if_neg (show ¬fp.enum.length ≠ 1 by simp [h])]
               simp only [hb, hl]⟩
        | some v =>
          exact ⟨parseCommaSeparated v,
            by rw [renderEnum, if_neg (show ¬fp.enum.length ≠ 1 by simp [h])]
               simp only [hb, hl]⟩
    · exact ⟨fp.enum, by simp [renderEnum, h]⟩

/-- Witness for C4, the spec's own example: enum ["{status}"] with mapping
status ↦ "open,closed" expands to ["open", "closed"], and with an empty
mapping passes the literal token through without failing. -/
theorem renderEnum_spec_witness :
    renderEnum ⟨"st", .string, Option.some "enum", ["{status}"], "", [], false⟩
        [("status", "open,closed")] = .ok ["open", "closed"] ∧
    renderEnum ⟨"st", .string, Option.some "enum", ["{status}"], "", [], false⟩
        [] = .ok ["{status}"] := by
  constructor
  · exact (renderEnum_spec ⟨"st", .string, Option.some "enum", ["{status}"], "", [], false⟩
      [("status", "open,closed")]).2.1 "{status}" "status" "open,closed" rfl rfl rfl
  · exact (renderEnum_spec ⟨"st", .string, Option.some "enum", ["{status}"], "", [], false⟩
      []).2.2.1 "{status}" "status" rfl rfl rfl

/-- Claim C9: a pointer field derives exactly the node of the pointed-to
type with nullable set to true; a pointer to a struct of declared kind
object gives an Object node with nullable true; and inside array elements a
slice of pointers yields an Array node whose items node carries nullable
true. -/
theorem marshalType_ptr_nullable (pt : GenaiType) (vars : Vars) :
    (∀ e s, marshalType e pt vars = .ok s →
      marshalType (.ptr e) pt vars = .ok (s.setNullable (Option.some true))) ∧
    (∀ e s, marshalType (.ptr e) pt vars = .ok s →
      ∃ s0, marshalType e pt vars = .ok s0 ∧ s = s0.setNullable (Option.some true) ∧
        s.nullable = Option.some true) ∧
    (∀ nm fs s, marshalType (.strct nm fs) .object vars = .ok s →
      marshalType (.ptr (.strct nm fs)) .object vars = .ok (s.setNullable (Option.some true)) ∧
      s.type = .object ∧ (s.setNullable (Option.some true)).type = .object ∧
      (s.setNullable (Option.some true)).nullable = Option.some true) ∧
    (∀ e s, marshalType (.ptr e) pt vars = .ok s →
      marshalType (.slice (.ptr e)) pt vars =
        .ok (.mk .array "" "" Option.none [] (.some s) .nil [] Option.none)) := by
  refine ⟨?_, ?_, ?_, ?_⟩
  · intro e s h
    rw [marshalType, h]
  · intro e s h
    rw [marshalType] at h
    cases he : marshalType e pt vars with
    | error err => rw [he] at h; exact absurd h (by simp)
    | ok s0 =>
      rw [he] at h
      simp only [Except.ok.injEq] at h
      exact ⟨s0, rfl, h.symm, by rw [← h]; cases s0; rfl⟩
  · intro nm fs s h
    obtain ⟨hty, _⟩ := marshalType_strct_object_shape nm fs vars s h
    refine ⟨by rw [marshalType, h], hty, ?_, ?_⟩
    · cases s; simpa [Schema.setNullable, Schema.type] using hty
    · cases s; rfl
  · intro e s h
    rw [marshalType, h]

/-- Witness for C9: a pointer to a one-field struct of kind object derives
the object node with nullable true, and a slice of such pointers derives an
Array whose items node is that nullable object. -/
theorem marshalType_ptr_nullable_witness :
    marshalType (.ptr innerFix) .object [] =
      .ok ((.mk .object "" ""
          Option.none [] .none
          (.cons "a1" (.mk .string "" "" Option.none [] .none .nil [] Option.none)
            (.cons "a2" (.mk .boolean "" "" Option.none [] .none .nil [] Option.none) .nil))
          ["a1"] (Option.some ["a1", "a2"]) : Schema).setNullable (Option.some true)) ∧
    marshalType (.slice (.ptr innerFix)) .object [] =
      .ok (.mk .array "" "" Option.none []
        (.some ((.mk .object "" "" Option.none [] .none
          (.cons "a1" (.mk .string "" "" Option.none [] .none .nil [] Option.none)
            (.cons "a2" (.mk .boolean "" "" Option.none [] .none .nil [] Option.none) .nil))
          ["a1"] (Option.some ["a1", "a2"]) : Schema).setNullable (Option.some true)))
        .nil [] Option.none) := by
  have h1 := (marshalType_ptr_nullable .object []).1 innerFix
    (.mk .object "" "" Option.none [] .none
      (.cons "a1" (.mk .string "" "" Option.none [] .none .nil [] Option.none)
        (.cons "a2" (.mk .boolean "" "" Option.none [] .none .nil [] Option.none) .nil))
      ["a1"] (Option.some ["a1", "a2"])) rfl
  refine ⟨h1, ?_⟩
  exact (marshalType_ptr_nullable .object []).2.2.2 innerFix _ h1

/-- Claim C10: MarshalResponseSchema on a non-nil pointer to a struct
unwraps the pointer only for the struct check and derives the schema from
the pointer type itself, so the returned root node carries nullable true;
on the plain struct value the same tree comes back with nullable unset. -/
theorem marshalResponseSchema_ptr_root (nm : String) (fs : GoFields) (vars : Vars)
    (s : Schema) (h : marshalType (.strct nm fs) .object vars = .ok s) :
    MarshalResponseSchema (Option.some (.ptr (.strct nm fs))) vars =
      .ok (s.setNullable (Option.some true)) ∧
    (s.setNullable (Option.some true)).nullable = Option.some true ∧
    MarshalResponseSchema (Option.some (.strct nm fs)) vars = .ok s ∧
    s.nullable = Option.none := by
  obtain ⟨_, hnul⟩ := marshalType_strct_object_shape nm fs vars s h
  refine ⟨?_, by cases s; rfl, ?_, hnul⟩
  · simp only [MarshalResponseSchema]
    rw [marshalType, h]
  · simp only [MarshalResponseSchema]
    exact h

/-- Counterexample to claim C3 as stated: docFix annotates a field whose
native type is a record (a time.Time-like struct) with declared kind
string; derivation succeeds and that field's node is a String leaf, not an
Object node built by recursing over the record's fields. -/
theorem structLeafCounterexample :
    MarshalResponseSchema (Option.some docFix) [] =
      .ok (.mk .object "" "" Option.none [] .none
        (.cons "documentDate" (.mk .string "" "" Option.none [] .none .nil [] Option.none)
          .nil)
        [] (Option.some ["documentDate"])) ∧
    marshalType timeTimeFix .string [] =
      .ok (.mk .string "" "" Option.none [] .none .nil [] Option.none) ∧
    (Schema.mk .string "" "" Option.none [] .none .nil [] Option.none).type ≠ .object := by
  exact ⟨rfl, rfl, by decide⟩

/-- Claim C3 (amended): marshalType's native-shape mapping — text to
String, bool to Boolean, every integer kind to Integer, every float kind to
Number, slice/array to an Array node wrapping the recursively derived
element node (and wrapping the element's failure in an error naming the
element type), and any unsupported kind to a failure naming the kind and
the Go type; a record type derives an Object node by recursing over its
fields only when the declared kind is object, and derives a bare leaf node
of the declared kind otherwise. -/
theorem marshalType_leaf_mapping (pt : GenaiType) (vars : Vars) :
    marshalType .string pt vars = .ok (bareSchema .string) ∧
    marshalType .bool pt vars = .ok (bareSchema .boolean) ∧
    (∀ k, marshalType (.int k) pt vars = .ok (bareSchema .integer)) ∧
    (∀ k, marshalType (.float k) pt vars = .ok (bareSchema .number)) ∧
    (∀ nm fs s, marshalType (.strct nm fs) .object vars = .ok s → s.type = .object) ∧
    (∀ nm fs, pt ≠ .object → marshalType (.strct nm fs) pt vars = .ok (bareSchema pt)) ∧
    (∀ e i, marshalType e pt vars = .ok i →
      marshalType (.slice e) pt vars =
        .ok (.mk .array "" "" Option.none [] (.some i) .nil [] Option.none)) ∧
    (∀ e err, marshalType e pt vars = .error err →
      marshalType (.slice e) pt vars =
        .error ("error marshaling array/slice items of type " ++ goTypeString e ++
          ": " ++ err)) ∧
    (∀ kd tn, marshalType (.unsupported kd tn) pt vars =
      .error ("unsupported type kind for schema generation: " ++ kd ++
        " (Go type: " ++ tn ++ ")")) := by
  refine ⟨rfl, rfl, fun _ => rfl, fun _ => rfl, ?_, ?_, ?_, ?_, fun _ _ => rfl⟩
  · intro nm fs s h
    exact (marshalType_strct_object_shape nm fs vars s h).1
  · intro nm fs hpt
    rw [marshalType, if_pos hpt]
  · intro e i h
    rw [marshalType, h]
  · intro e err h
    rw [marshalType, h]

/-- Witness for the amended C3: an array of arrays of strings derives
nested Array nodes; a slice of an unsupported kind propagates the
unsupported-type failure with the wrapping message; a record under declared
kind integer derives the bare Integer leaf. -/
theorem marshalType_leaf_mapping_witness :
    marshalType (.slice (.slice .string)) .string [] =
      .ok (.mk .array "" "" Option.none []
        (.some (.mk .array "" "" Option.none [] (.some (bareSchema .string)) .nil []
          Option.none))
        .nil [] Option.none) ∧
    marshalType (.slice (.unsupported "map" "map[string]int")) .string [] =
      .error ("error marshaling array/slice items of type map[string]int: " ++
        "unsupported type kind for schema generation: map (Go type: map[string]int)") ∧
    marshalType (.strct "Meta" .nil) .integer [] = .ok (bareSchema .integer) := by
  have hm := marshalType_leaf_mapping .string []
  refine ⟨?_, ?_, ?_⟩
  · exact hm.2.2.2.2.2.2.1 (.slice .string) _
      (hm.2.2.2.2.2.2.1 .string _ hm.1)
  · exact hm.2.2.2.2.2.2.2.1 (.unsupported "map" "map[string]int") _
      (hm.2.2.2.2.2.2.2.2 "map" "map[string]int")
  · exact (marshalType_leaf_mapping .integer []).2.2.2.2.2.1 "Meta" .nil (by decide)

/-- The two parser error messages can never coincide, whatever the kind
token is. -/
theorem unsupported_ne_missing (s : String) :
    "unsupported field type " ++ s ≠ "missing either prompt property name or type" := by
  obtain ⟨l⟩ := s
  intro heq
  have h1 : ("unsupported field type " ++ String.mk l).data.head? = Option.some 'u' := rfl
  rw [heq] at h1
  exact absurd h1 (by decide)

/-- Every failure of toGenaiType carries the unsupported-kind message naming
the offending token. -/
theorem toGenaiType_error_form (s e : String) (h : toGenaiType s = .error e) :
    e = "unsupported field type " ++ s := by
  simp only [toGenaiType] at h
  split at h
  · exact absurd h (by simp)
  · split at h
    · exact absurd h (by simp)
    · split at h
      · exact absurd h (by simp)
      · split at h
        · exact absurd h (by simp)
        · split at h
          · exact absurd h (by simp)
          · simp only [Except.error.injEq] at h
            exact h.symm

/-- Claim C7: the "required" token is stripped from every position before
positional parsing and sets the required flag; parsing fails with the
malformed-annotation message exactly when fewer than two parts remain after
the stripping; the kind token must be one of the five recognised kinds and
any other token fails with the unsupported-kind error naming it. -/
theorem parseFieldParams_required_and_kind (tag : StructTag) (hp : tag.prompt ≠ "") :
    ((parseFieldParams tag = .error "missing either prompt property name or type") ↔
      (strippedParts (splitComma tag.prompt)).length < 2) ∧
    (∀ fp, parseFieldParams tag = .ok (Option.some fp) →
      fp.isRequired = decide ("required" ∈ splitComma tag.prompt) ∧
      fp.name = (strippedParts (splitComma tag.prompt)).getD 0 "" ∧
      toGenaiType ((strippedParts (splitComma tag.prompt)).getD 1 "") = .ok fp.type) ∧
    (∀ e, toGenaiType ((strippedParts (splitComma tag.prompt)).getD 1 "") = .error e →
      ¬(strippedParts (splitComma tag.prompt)).length < 2 →
      parseFieldParams tag = .error e) ∧
    (∀ s, (∃ g, toGenaiType s = .ok g) ↔
      s ∈ ["string", "bool", "number", "integer", "object"]) ∧
    (∀ s, s ∉ ["string", "bool", "number", "integer", "object"] →
      toGenaiType s = .error ("unsupported field type " ++ s)) := by
  have hsp : (if decide ("required" ∈ splitComma tag.prompt) = true then
      (splitComma tag.prompt).filter (fun p => p ≠ "required")
    else splitComma tag.prompt) = strippedParts (splitComma tag.prompt) := by
    simp only [strippedParts, decide_eq_true_eq]
  refine ⟨⟨?_, ?_⟩, ?_, ?_, ?_, ?_⟩
  · intro h
    by_contra hlen
    simp only [parseFieldParams, if_neg hp] at h
    rw [hsp, if_neg hlen] at h
    cases hg : toGenaiType ((strippedParts (splitComma tag.prompt)).getD 1 "") with
    | ok ft => rw [hg] at h; exact absurd h (by simp)
    | error e =>
      rw [hg] at h
      simp only [Except.error.injEq] at h
      exact absurd (h ▸ toGenaiType_error_form _ _ hg).symm
        (unsupported_ne_missing ((strippedParts (splitComma tag.prompt)).getD 1 ""))
  · intro hlen
    simp only [parseFieldParams, if_neg hp]
    rw [hsp, if_pos hlen]
  · intro fp h
    simp only [parseFieldParams, if_neg hp] at h
    rw [hsp] at h
    split at h
    · exact absurd h (by simp)
    · split at h
      · exact absurd h (by simp)
      · rename_i x fieldType heq
        simp only [Except.ok.injEq, Option.some.injEq] at h
        subst h
        by_cases hl : (strippedParts (splitComma tag.prompt)).length > 2 <;>
          by_cases hf : (strippedParts (splitComma tag.prompt)).getD 2 "" = "" <;>
            by_cases henum : parseCommaSeparated tag.prompt_enum = [] <;>
              by_cases htype : fieldType = GenaiType.number <;>
                simp_all
  · intro e he hlen
    simp only [parseFieldParams, if_neg hp]
    rw [hsp, if_neg hlen, he]
  · intro s
    constructor
    · rintro ⟨g, hg⟩
      simp only [toGenaiType] at hg
      split at hg
      · simp_all
      · split at hg
        · simp_all
        · split at hg
          · simp_all
          · split at hg
            · simp_all
            · split at hg
              · simp_all
              · simp_all
    · intro hmem
      simp only [List.mem_cons, List.mem_singleton, List.not_mem_nil, or_false] at hmem
      rcases hmem with h | h | h | h | h <;> subst h <;> exact ⟨_, rfl⟩
  · intro s hs
    simp only [List.mem_cons, List.mem_singleton, List.not_mem_nil, or_false, not_or] at hs
    obtain ⟨h1, h2, h3, h4, h5⟩ := hs
    simp only [toGenaiType, if_neg h1, if_neg h2, if_neg h3, if_neg h4, if_neg h5]

/-- Witness for C7: a one-part tag fails with the malformed message, the
kind token "boolean" (not among the five recognised tokens) fails with the
unsupported-kind message, and a tag with "required" in leading position
parses with the required flag set. -/
theorem parseFieldParams_required_and_kind_witness :
    parseFieldParams ⟨"wrongNumberOfParams", "", "", ""⟩ =
      .error "missing either prompt property name or type" ∧
    parseFieldParams ⟨"f,boolean", "", "", ""⟩ =
      .error "unsupported field type boolean" ∧
    (∀ fp, parseFieldParams ⟨"required,f,string", "", "", ""⟩ = .ok (Option.some fp) →
      fp.isRequired = true ∧ fp.name = "f") := by
  refine ⟨?_, ?_, ?_⟩
  · exact (parseFieldParams_required_and_kind ⟨"wrongNumberOfParams", "", "", ""⟩
      (by decide)).1.mpr (by decide)
  · exact (parseFieldParams_required_and_kind ⟨"f,boolean", "", "", ""⟩
      (by decide)).2.2.1 "unsupported field type boolean" rfl (by decide)
  · intro fp h
    have hc := (parseFieldParams_required_and_kind ⟨"required,f,string", "", "", ""⟩
      (by decide)).2.1 fp h
    exact ⟨by rw [hc.1]; rfl, by rw [hc.2.1]; rfl⟩

/-- setNullable does not change the type, items, properties, required or
propertyOrdering of a node. -/
theorem arraySpineB_setNullable (s : Schema) (v : Option Bool) :
    arraySpineB (s.setNullable v) = arraySpineB s := by
  obtain ⟨t, f, d, n, e, i, p, r, po⟩ := s
  cases t <;> cases i <;> rfl

/-- Every schema node marshalType produces under a specified, non-array
declared kind has a well-formed array spine: arrays carry items, and the
innermost non-array node's type is specified. -/
theorem marshalType_arraySpine :
    ∀ (t : GoType) (pt : GenaiType) (vars : Vars) (s : Schema),
      marshalType t pt vars = .ok s → pt ≠ .unspecified → pt ≠ .array →
      arraySpineB s = true
  | .string, pt, vars, s, h, h1, h2 => by
    simp only [marshalType, Except.ok.injEq] at h
    subst h; rfl
  | .bool, pt, vars, s, h, h1, h2 => by
    simp only [marshalType, Except.ok.injEq] at h
    subst h; rfl
  | .int k, pt, vars, s, h, h1, h2 => by
    simp only [marshalType, Except.ok.injEq] at h
    subst h; rfl
  | .float k, pt, vars, s, h, h1, h2 => by
    simp only [marshalType, Except.ok.injEq] at h
    subst h; rfl
  | .unsupported kd tn, pt, vars, s, h, h1, h2 => by
    exact absurd h (by simp [marshalType])
  | .ptr e, pt, vars, s, h, h1, h2 => by
    rw [marshalType] at h
    cases he : marshalType e pt vars with
    | error err => rw [he] at h; exact absurd h (by simp)
    | ok s0 =>
      rw [he] at h
      simp only [Except.ok.injEq] at h
      subst h
      rw [arraySpineB_setNullable]
      exact marshalType_arraySpine e pt vars s0 he h1 h2
  | .slice e, pt, vars, s, h, h1, h2 => by
    rw [marshalType] at h
    cases he : marshalType e pt vars with
    | error err => rw [he] at h; exact absurd h (by simp)
    | ok i =>
      rw [he] at h
      simp only [Except.ok.injEq] at h
      subst h
      simpa [arraySpineB] using marshalType_arraySpine e pt vars i he h1 h2
  | .strct nm fs, pt, vars, s, h, h1, h2 => by
    rw [marshalType] at h
    by_cases hpt : pt = .object
    · rw [if_neg (by simp [hpt])] at h
      cases hm : marshalFields fs vars .nil [] [] with
      | error err => rw [hm] at h; exact absurd h (by simp)
      | ok triple =>
        obtain ⟨props, ord, req⟩ := triple
        rw [hm] at h
        simp only [Except.ok.injEq] at h
        subst h
        simp [arraySpineB, Schema.type, hpt]
    · rw [if_pos hpt] at h
      simp only [Except.ok.injEq] at h
      subst h
      cases pt <;> first | rfl | simp_all

/-- validateMarshaledFieldType on a node with a well-formed array spine
succeeds exactly when the innermost non-array type equals the declared
kind, and otherwise fails with the type-mismatch message built from the
field name, the innermost derived type and the declared kind. -/
theorem validate_characterization :
    ∀ (s : Schema) (fp : FieldParams), arraySpineB s = true →
      ((validateMarshaledFieldType s fp = .ok ()) ↔ (stripArrays s).type = fp.type) ∧
      ((stripArrays s).type ≠ fp.type →
        validateMarshaledFieldType s fp =
          .error (typeMismatchMessage fp.name (stripArrays s).type fp.type))
  | .mk ty f d n e items p r po, fp => by
    intro hspine
    cases ty with
    | array =>
      cases items with
      | none => simp [arraySpineB] at hspine
      | some i =>
        have IH := validate_characterization i fp (by simpa [arraySpineB] using hspine)
        simpa [validateMarshaledFieldType, stripArrays] using IH
    | unspecified => simp [arraySpineB, Schema.type] at hspine
    | string =>
      by_cases hft : fp.type = GenaiType.string
      · simp [validateMarshaledFieldType, stripArrays, Schema.type, hft]
      · constructor
        · simp [validateMarshaledFieldType, stripArrays, Schema.type, hft]
        · intro hne
          simp only [stripArrays, Schema.type] at hne
          simp [validateMarshaledFieldType, stripArrays, Schema.type, hne]
    | number =>
      by_cases hft : fp.type = GenaiType.number
      · simp [validateMarshaledFieldType, stripArrays, Schema.type, hft]
      · constructor
        · simp [validateMarshaledFieldType, stripArrays, Schema.type, hft]
        · intro hne
          simp only [stripArrays, Schema.type] at hne
          simp [validateMarshaledFieldType, stripArrays, Schema.type, hne]
    | integer =>
      by_cases hft : fp.type = GenaiType.integer
      · simp [validateMarshaledFieldType, stripArrays, Schema.type, hft]
      · constructor
        · simp [validateMarshaledFieldType, stripArrays, Schema.type, hft]
        · intro hne
          simp only [stripArrays, Schema.type] at hne
          simp [validateMarshaledFieldType, stripArrays, Schema.type, hne]
    | boolean =>
      by_cases hft : fp.type = GenaiType.boolean
      · simp [validateMarshaledFieldType, stripArrays, Schema.type, hft]
      · constructor
        · simp [validateMarshaledFieldType, stripArrays, Schema.type, hft]
        · intro hne
          simp only [stripArrays, Schema.type] at hne
          simp [validateMarshaledFieldType, stripArrays, Schema.type, hne]
    | object =>
      by_cases hft : fp.type = GenaiType.object
      · simp [validateMarshaledFieldType, stripArrays, Schema.type, hft]
      · constructor
        · simp [validateMarshaledFieldType, stripArrays, Schema.type, hft]
        · intro hne
          simp only [stripArrays, Schema.type] at hne
          simp [validateMarshaledFieldType, stripArrays, Schema.type, hne]

/-- Every success of toGenaiType yields one of the five declared kinds. -/
theorem toGenaiType_ok_mem (s : String) (g : GenaiType) (h : toGenaiType s = .ok g) :
    g = .string ∨ g = .boolean ∨ g = .number ∨ g = .integer ∨ g = .object := by
  simp only [toGenaiType] at h
  split at h
  · simp_all
  · split at h
    · simp_all
    · split at h
      · simp_all
      · split at h
        · simp_all
        · split at h
          · simp_all
          · simp_all

/-- The shape of every successfully parsed FieldParams: its components in
terms of the tag. -/
theorem parseFieldParams_ok_shape (tag : StructTag) (fp : FieldParams)
    (h : parseFieldParams tag = .ok (Option.some fp)) :
    toGenaiType ((strippedParts (splitComma tag.prompt)).getD 1 "") = .ok fp.type ∧
    fp.name = (strippedParts (splitComma tag.prompt)).getD 0 "" ∧
    fp.enum = parseCommaSeparated tag.prompt_enum ∧
    fp.description = tag.prompt_description ∧
    fp.aliases = parseCommaSeparated tag.prompt_aliases := by
  have hsp : (if decide ("required" ∈ splitComma tag.prompt) = true then
      (splitComma tag.prompt).filter (fun p => p ≠ "required")
    else splitComma tag.prompt) = strippedParts (splitComma tag.prompt) := by
    simp only [strippedParts, decide_eq_true_eq]
  simp only [parseFieldParams] at h
  rw [hsp] at h
  split at h
  · exact absurd h (by simp)
  · split at h
    · exact absurd h (by simp)
    · split at h
      · exact absurd h (by simp)
      · rename_i x fieldType heq
        simp only [Except.ok.injEq, Option.some.injEq] at h
        subst h
        by_cases hf : (if (strippedParts (splitComma tag.prompt)).length > 2 then
            (strippedParts (splitComma tag.prompt)).getD 2 "" else "") ≠ "" <;>
          by_cases henum : parseCommaSeparated tag.prompt_enum = [] <;>
            by_cases htype : fieldType = GenaiType.number <;>
              simp_all

/-- Every annotated field's declared kind is one of the five specified,
non-array types. -/
theorem parseFieldParams_type_sane (tag : StructTag) (fp : FieldParams)
    (h : parseFieldParams tag = .ok (Option.some fp)) :
    fp.type ≠ .unspecified ∧ fp.type ≠ .array := by
  have hm := toGenaiType_ok_mem _ _ (parseFieldParams_ok_shape tag fp h).1
  rcases hm with h1 | h1 | h1 | h1 | h1 <;> rw [h1] <;> exact ⟨by decide, by decide⟩

/-- If the field loop succeeds, then every exported, non-embedded field with
a parsed annotation went through the whole per-field pipeline: its type
marshalled, the kind validation passed, and the description rendered without
failure. -/
theorem marshalFields_success :
    ∀ (fs : GoFields) (vars : Vars) (props : SchemaProps) (ord req : List String)
      (res : SchemaProps × List String × List String),
      marshalFields fs vars props ord req = .ok res →
      ∀ f, f ∈ fs.toList → f.exported = true → f.anonymous = false →
      ∀ fp, parseFieldParams f.tag = .ok (Option.some fp) →
      ∃ fsch, marshalType f.type fp.type vars = .ok fsch ∧
        validateMarshaledFieldType fsch fp = .ok () ∧
        (renderDescription fp vars).2 = Option.none
  | .nil, vars, props, ord, req, res, h => by
    intro f hf
    simp [GoFields.toList] at hf
  | .cons (.mk fname fexp fanon ftag ftype) rest, vars, props, ord, req, res, h => by
    intro f hf hexp hanon fp hfp
    rw [marshalFields] at h
    simp only [GoFields.toList, List.mem_cons] at hf
    rcases hf with hf | hf
    · -- f is the head field
      subst hf
      simp only [GoField.exported] at hexp
      simp only [GoField.anonymous] at hanon
      simp only [GoField.tag] at hfp
      simp only [GoField.type]
      rw [if_neg (by simp [hexp])] at h
      rw [if_neg (by simp [hanon])] at h
      simp only [hfp] at h
      cases hms : marshalType ftype fp.type vars with
      | error e => simp only [hms] at h; exact absurd h (by simp)
      | ok fsch =>
        simp only [hms] at h
        cases hv : validateMarshaledFieldType fsch fp with
        | error e => simp only [hv] at h; exact absurd h (by simp)
        | ok u =>
          simp only [hv] at h
          cases hr : renderDescription fp vars with
          | mk text err =>
            cases err with
            | some e => simp only [hr] at h; exact absurd h (by simp)
            | none => exact ⟨fsch, rfl, by rw [hv], rfl⟩
    · -- f is in the tail: extract the recursive call from h whatever the
      -- head field did
      by_cases hexp0 : fexp = false
      · rw [if_pos hexp0] at h
        exact marshalFields_success rest vars props ord req res h f hf hexp hanon fp hfp
      · rw [if_neg hexp0] at h
        by_cases hanon0 : fanon = true
        · rw [if_pos hanon0] at h
          cases hemb : marshalType ftype .object vars with
          | error e => simp only [hemb] at h; exact absurd h (by simp)
          | ok embedded =>
            simp only [hemb] at h
            exact marshalFields_success rest vars _ _ _ res h f hf hexp hanon fp hfp
        · rw [if_neg hanon0] at h
          cases hpp : parseFieldParams ftag with
          | error e => simp only [hpp] at h; exact absurd h (by simp)
          | ok ofp =>
            simp only [hpp] at h
            cases ofp with
            | none =>
              exact marshalFields_success rest vars props ord req res h f hf hexp hanon fp hfp
            | some fp0 =>
              cases hms : marshalType ftype fp0.type vars with
              | error e => simp only [hms] at h; exact absurd h (by simp)
              | ok fsch0 =>
                simp only [hms] at h
                cases hv : validateMarshaledFieldType fsch0 fp0 with
                | error e => simp only [hv] at h; exact absurd h (by simp)
                | ok u =>
                  simp only [hv] at h
                  cases hr : renderDescription fp0 vars with
                  | mk text err =>
                    cases err with
                    | some e => simp only [hr] at h; exact absurd h (by simp)
                    | none =>
                      simp only [hr] at h
                      exact marshalFields_success rest vars _ _ _ res h f hf hexp hanon fp hfp

/-- Claim C2: for an annotated field, kind validation compares the schema
type derived from the field's native type with the declared kind after
recursively unwrapping all array levels, fails exactly on disagreement with
a type-mismatch error naming the field, the derived type and the declared
kind (the declared kind of a parsed annotation is always specified and
non-array); and a successful derivation implies every annotated field
passed this validation. -/
theorem validateMarshaledFieldType_mismatch (vars : Vars) :
    (∀ (t : GoType) (fp : FieldParams) (s : Schema),
      fp.type ≠ .unspecified → fp.type ≠ .array →
      marshalType t fp.type vars = .ok s →
      ((validateMarshaledFieldType s fp = .ok ()) ↔ (stripArrays s).type = fp.type) ∧
      ((stripArrays s).type ≠ fp.type →
        validateMarshaledFieldType s fp =
          .error (typeMismatchMessage fp.name (stripArrays s).type fp.type))) ∧
    (∀ tag fp, parseFieldParams tag = .ok (Option.some fp) →
      fp.type ≠ .unspecified ∧ fp.type ≠ .array) ∧
    (∀ nm fs s, marshalType (.strct nm fs) .object vars = .ok s →
      ∀ f, f ∈ GoFields.toList fs → f.exported = true → f.anonymous = false →
      ∀ fp, parseFieldParams f.tag = .ok (Option.some fp) →
      ∃ fsch, marshalType f.type fp.type vars = .ok fsch ∧
        validateMarshaledFieldType fsch fp = .ok ()) := by
  refine ⟨?_, parseFieldParams_type_sane, ?_⟩
  · intro t fp s h1 h2 h
    exact validate_characterization s fp (marshalType_arraySpine t fp.type vars s h h1 h2)
  · intro nm fs s h f hf hexp hanon fp hfp
    rw [marshalType] at h
    rw [if_neg (by simp)] at h
    cases hm : marshalFields fs vars .nil [] [] with
    | error e => rw [hm] at h; exact absurd h (by simp)
    | ok triple =>
      obtain ⟨fsch, hm1, hm2, _⟩ :=
        marshalFields_success fs vars .nil [] [] triple hm f hf hexp hanon fp hfp
      exact ⟨fsch, hm1, hm2⟩

/-- Witness for C2: a field whose native type is textual but whose declared
kind is integer fails validation with the mismatch message naming the
field, and the whole derivation surfaces exactly that error; an array of
strings declared integer fails the same way through the unwrapping. -/
theorem validateMarshaledFieldType_mismatch_witness :
    validateMarshaledFieldType (bareSchema .string)
        ⟨"f", .integer, Option.none, [], "", [], false⟩ =
      .error "type mismatch for field \x27f\x27: Go type implies STRING, but prompt tag specifies INTEGER" ∧
    MarshalResponseSchema
        (Option.some (.strct "Bad"
          (.cons (.mk "F" true false ⟨"f,integer", "", "", ""⟩ .string) .nil))) [] =
      .error "type mismatch for field \x27f\x27: Go type implies STRING, but prompt tag specifies INTEGER" ∧
    validateMarshaledFieldType
        (.mk .array "" "" Option.none [] (.some (bareSchema .string)) .nil [] Option.none)
        ⟨"g", .integer, Option.none, [], "", [], false⟩ =
      .error "type mismatch for field \x27g\x27: Go type implies STRING, but prompt tag specifies INTEGER" := by
  refine ⟨?_, rfl, ?_⟩
  · exact ((validateMarshaledFieldType_mismatch []).1 .string
      ⟨"f", .integer, Option.none, [], "", [], false⟩ (bareSchema .string)
      (by decide) (by decide) rfl).2 (by decide)
  · exact ((validateMarshaledFieldType_mismatch []).1 (.slice .string)
      ⟨"g", .integer, Option.none, [], "", [], false⟩
      (.mk .array "" "" Option.none [] (.some (bareSchema .string)) .nil [] Option.none)
      (by decide) (by decide) rfl).2 (by decide)

/-- The single pass of renderDescription over the matches decomposes into
the substitution of the resolved tokens and the collection of the missing
identifiers in order of occurrence. -/
theorem substitute_foldl (vars : Vars) :
    ∀ (tokens : List String) (text : String) (miss : List String),
      tokens.foldl (substituteStep vars) (text, miss) =
        (resolvedSubstitution vars text tokens, miss ++ missingTokens vars tokens)
  | [], text, miss => by
    simp [resolvedSubstitution, missingTokens]
  | id :: rest, text, miss => by
    cases hl : lookupVar vars id with
    | some v =>
      simp only [List.foldl_cons, substituteStep, hl]
      rw [substitute_foldl vars rest]
      simp [resolvedSubstitution, missingTokens, hl]
    | none =>
      simp only [List.foldl_cons, substituteStep, hl]
      rw [substitute_foldl vars rest]
      simp [resolvedSubstitution, missingTokens, hl]

/-- Claim C5: the description renderer fails exactly when at least one
brace token's identifier is missing from the variable mapping, the error
names every missing identifier in order of occurrence, the returned text is
in every case the best-effort text in which only the resolved tokens are
substituted (with the alias sentence appended), and a successful derivation
implies every annotated field's description rendered without failure (the
schema-build caller propagates the failure). -/
theorem renderDescription_missing_spec (vars : Vars) :
    (∀ fp : FieldParams,
      ((renderDescription fp vars).2 = Option.none ↔
        missingTokens vars (findTokens fp.description) = []) ∧
      (missingTokens vars (findTokens fp.description) ≠ [] →
        (renderDescription fp vars).2 =
          Option.some (missingVarsMessage (missingTokens vars (findTokens fp.description)))) ∧
      (renderDescription fp vars).1 =
        String.intercalate " "
          ((if fp.description ≠ "" then
              [resolvedSubstitution vars fp.description (findTokens fp.description)]
            else []) ++
            (if fp.aliases ≠ [] then [aliasSentence fp.aliases] else []))) ∧
    (∀ nm fs s, marshalType (.strct nm fs) .object vars = .ok s →
      ∀ f, f ∈ GoFields.toList fs → f.exported = true → f.anonymous = false →
      ∀ fp, parseFieldParams f.tag = .ok (Option.some fp) →
      (renderDescription fp vars).2 = Option.none) := by
  constructor
  · intro fp
    by_cases hd : fp.description = ""
    · have h0 : findTokens "" = [] := rfl
      refine ⟨?_, ?_, ?_⟩
      · simp [renderDescription, hd, h0, missingTokens]
      · intro hm
        rw [hd] at hm
        exact absurd (by simp [h0, missingTokens]) hm
      · simp [renderDescription, hd, h0, resolvedSubstitution]
    · have hfold := substitute_foldl vars (findTokens fp.description) fp.description []
      refine ⟨?_, ?_, ?_⟩
      · simp only [renderDescription, if_pos hd, hfold]
        by_cases hm : missingTokens vars (findTokens fp.description) = [] <;> simp [hm]
      · intro hm
        simp only [renderDescription, if_pos hd, hfold]
        simp [hm]
      · simp only [renderDescription, if_pos hd, hfold]
        by_cases ha : fp.aliases = [] <;> simp [ha]
  · intro nm fs s h f hf hexp hanon fp hfp
    rw [marshalType] at h
    rw [if_neg (by simp)] at h
    cases hm : marshalFields fs vars .nil [] [] with
    | error e => rw [hm] at h; exact absurd h (by simp)
    | ok triple =>
      obtain ⟨fsch, _, _, h3⟩ :=
        marshalFields_success fs vars .nil [] [] triple hm f hf hexp hanon fp hfp
      exact h3

/-- Witness for C5: a description with one resolved and one unresolved
token fails naming the missing identifier while returning the best-effort
text with the resolved token substituted and the unresolved token left in
place; with all tokens resolved and an alias the call succeeds with the
substituted text and the alias sentence appended. -/
theorem renderDescription_missing_spec_witness :
    renderDescription ⟨"t", .string, Option.none, [], "Hello {x} {y}", [], false⟩
        [("x", "World")] =
      ("Hello World {y}", Option.some "missing variables in description: y") ∧
    renderDescription ⟨"t", .string, Option.none, [], "Hello {x}", ["a"], false⟩
        [("x", "World")] =
      ("Hello World Also commonly reported as \x27a\x27.", Option.none) := by
  constructor
  · have hthm := (renderDescription_missing_spec [("x", "World")]).1
      ⟨"t", .string, Option.none, [], "Hello {x} {y}", [], false⟩
    have h2 := hthm.2.1 (by decide)
    have h1 := hthm.2.2
    rw [Prod.ext_iff]
    exact ⟨h1.trans rfl, h2.trans rfl⟩
  · rfl

/-- setNullable leaves propertyOrdering unchanged. -/
theorem setNullable_propertyOrdering (s : Schema) (v : Option Bool) :
    (s.setNullable v).propertyOrdering = s.propertyOrdering := by
  obtain ⟨t, f, d, n, e, i, p, r, po⟩ := s
  rfl

/-- The Go nil-slice reading of listToOpt. -/
theorem getD_listToOpt (l : List String) : (listToOpt l).getD [] = l := by
  by_cases h : l = [] <;> simp [listToOpt, h]

mutual
/-- The propertyOrdering of every node marshalType produces is exactly the
declaration-order list of annotated property names of the marshalled type
(set only when non-empty, and only on object nodes). -/
theorem marshalType_ordering :
    ∀ (t : GoType) (pt : GenaiType) (vars : Vars) (s : Schema),
      marshalType t pt vars = .ok s →
      s.propertyOrdering = listToOpt (if pt = .object then declaredOrdering t else [])
  | .string, pt, vars, s, h => by
    simp only [marshalType, Except.ok.injEq] at h
    subst h
    simp [bareSchema, Schema.propertyOrdering, declaredOrdering, listToOpt, ite_self]
  | .bool, pt, vars, s, h => by
    simp only [marshalType, Except.ok.injEq] at h
    subst h
    simp [bareSchema, Schema.propertyOrdering, declaredOrdering, listToOpt, ite_self]
  | .int k, pt, vars, s, h => by
    simp only [marshalType, Except.ok.injEq] at h
    subst h
    simp [bareSchema, Schema.propertyOrdering, declaredOrdering, listToOpt, ite_self]
  | .float k, pt, vars, s, h => by
    simp only [marshalType, Except.ok.injEq] at h
    subst h
    simp [bareSchema, Schema.propertyOrdering, declaredOrdering, listToOpt, ite_self]
  | .unsupported kd tn, pt, vars, s, h => by
    exact absurd h (by simp [marshalType])
  | .ptr e, pt, vars, s, h => by
    rw [marshalType] at h
    cases he : marshalType e pt vars with
    | error err => rw [he] at h; exact absurd h (by simp)
    | ok s0 =>
      rw [he] at h
      simp only [Except.ok.injEq] at h
      subst h
      rw [setNullable_propertyOrdering, marshalType_ordering e pt vars s0 he]
      simp [declaredOrdering]
  | .slice e, pt, vars, s, h => by
    rw [marshalType] at h
    cases he : marshalType e pt vars with
    | error err => rw [he] at h; exact absurd h (by simp)
    | ok i =>
      rw [he] at h
      simp only [Except.ok.injEq] at h
      subst h
      simp [Schema.propertyOrdering, declaredOrdering, listToOpt, ite_self]
  | .strct nm fs, pt, vars, s, h => by
    rw [marshalType] at h
    by_cases hpt : pt = .object
    · rw [if_neg (by simp [hpt])] at h
      cases hm : marshalFields fs vars .nil [] [] with
      | error err => rw [hm] at h; exact absurd h (by simp)
      | ok triple =>
        obtain ⟨props, ord, req⟩ := triple
        rw [hm] at h
        simp only [Except.ok.injEq] at h
        subst h
        have hord := marshalFields_ordering fs vars .nil [] [] (props, ord, req) hm
        simp only [List.nil_append] at hord
        rw [hpt]
        simp only [reduceIte, Schema.propertyOrdering, declaredOrdering]
        rw [hord]
        by_cases h0 : declaredFieldsOrdering fs = [] <;> simp [h0, listToOpt]
    · rw [if_pos hpt] at h
      simp only [Except.ok.injEq] at h
      subst h
      simp [bareSchema, Schema.propertyOrdering, listToOpt, hpt]

/-- The ordering accumulated by the field loop extends the incoming
ordering with the declaration-order names of the processed fields. -/
theorem marshalFields_ordering :
    ∀ (fs : GoFields) (vars : Vars) (props : SchemaProps) (ord req : List String)
      (res : SchemaProps × List String × List String),
      marshalFields fs vars props ord req = .ok res →
      res.2.1 = ord ++ declaredFieldsOrdering fs
  | .nil, vars, props, ord, req, res, h => by
    simp only [marshalFields, Except.ok.injEq] at h
    subst h
    simp [declaredFieldsOrdering]
  | .cons (.mk fname fexp fanon ftag ftype) rest, vars, props, ord, req, res, h => by
    rw [marshalFields] at h
    by_cases hexp : fexp = false
    · rw [if_pos hexp] at h
      rw [marshalFields_ordering rest vars props ord req res h]
      simp [declaredFieldsOrdering, hexp]
    · rw [if_neg hexp] at h
      by_cases hanon : fanon = true
      · rw [if_pos hanon] at h
        cases hemb : marshalType ftype .object vars with
        | error e => simp only [hemb] at h; exact absurd h (by simp)
        | ok embedded =>
          simp only [hemb] at h
          have hord := marshalType_ordering ftype .object vars embedded hemb
          simp only [reduceIte] at hord
          rw [marshalFields_ordering rest vars _ _ _ res h]
          by_cases hdo : declaredOrdering ftype = []
          · simp [hord, listToOpt, hdo, declaredFieldsOrdering, hexp, hanon]
          · simp [hord, listToOpt, hdo, declaredFieldsOrdering, hexp, hanon,
              List.length_pos, List.append_assoc]
      · rw [if_neg hanon] at h
        cases hpp : parseFieldParams ftag with
        | error e => simp only [hpp] at h; exact absurd h (by simp)
        | ok ofp =>
          simp only [hpp] at h
          cases ofp with
          | none =>
            rw [marshalFields_ordering rest vars props ord req res h]
            simp [declaredFieldsOrdering, hexp, hanon, hpp]
          | some fp0 =>
            cases hms : marshalType ftype fp0.type vars with
            | error e => simp only [hms] at h; exact absurd h (by simp)
            | ok fsch =>
              simp only [hms] at h
              cases hv : validateMarshaledFieldType fsch fp0 with
              | error e => simp only [hv] at h; exact absurd h (by simp)
              | ok u =>
                simp only [hv] at h
                cases hr : renderDescription fp0 vars with
                | mk text err =>
                  cases err with
                  | some e => simp only [hr] at h; exact absurd h (by simp)
                  | none =>
                    simp only [hr] at h
                    rw [marshalFields_ordering rest vars _ _ _ res h]
                    simp [declaredFieldsOrdering, hexp, hanon, hpp]
end

mutual
/-- declaredOrdering has one entry per annotated field. -/
theorem declaredOrdering_length :
    ∀ t : GoType, (declaredOrdering t).length = annotatedFieldCount t
  | .string => rfl
  | .bool => rfl
  | .int k => rfl
  | .float k => rfl
  | .slice e => rfl
  | .unsupported kd tn => rfl
  | .ptr e => by
    simp [declaredOrdering, annotatedFieldCount, declaredOrdering_length e]
  | .strct nm fs => by
    simp [declaredOrdering, annotatedFieldCount, declaredFieldsOrdering_length fs]

/-- declaredFieldsOrdering has one entry per annotated field of the list. -/
theorem declaredFieldsOrdering_length :
    ∀ fs : GoFields, (declaredFieldsOrdering fs).length = annotatedFieldsCount fs
  | .nil => rfl
  | .cons (.mk fname fexp fanon ftag ftype) rest => by
    rw [declaredFieldsOrdering, annotatedFieldsCount, List.length_append,
      declaredFieldsOrdering_length rest]
    by_cases hexp : fexp = false
    · simp [hexp]
    · by_cases hanon : fanon = true
      · simp [hexp, hanon, declaredOrdering_length ftype]
      · cases hpp : parseFieldParams ftag with
        | error e => simp [hexp, hanon, hpp]
        | ok ofp => cases ofp <;> simp [hexp, hanon, hpp]
end

/-- Claim C1: for every type whose derivation succeeds, the derived node's
propertyOrdering is exactly the declaration-order list of its annotated
field names — with an embedded struct's names appearing as their own
contiguous sub-order at the embedding point — and has exactly one entry per
annotated field (counting fields contributed through embedded structs);
quantified over all types and declared kinds, so the statement applies to
every nested object node and array-item node as well. -/
theorem marshalType_propertyOrdering (t : GoType) (pt : GenaiType) (vars : Vars)
    (s : Schema) (h : marshalType t pt vars = .ok s) :
    s.propertyOrdering = listToOpt (if pt = .object then declaredOrdering t else []) ∧
    (s.propertyOrdering.getD []).length =
      (if pt = .object then annotatedFieldCount t else 0) := by
  have h1 := marshalType_ordering t pt vars s h
  refine ⟨h1, ?_⟩
  rw [h1]
  by_cases hpt : pt = .object <;> simp [hpt, getD_listToOpt, declaredOrdering_length t]

/-- Witness for C1: a struct with an annotated field, an embedded
two-field struct, an unexported field, an untagged field and a final
annotated field derives the ordering x, a1, a2, y with four entries. -/
theorem marshalType_propertyOrdering_witness :
    ∃ s, marshalType outerFix .object [] = .ok s ∧
      s.propertyOrdering = Option.some ["x", "a1", "a2", "y"] ∧
      (s.propertyOrdering.getD []).length = annotatedFieldCount outerFix ∧
      annotatedFieldCount outerFix = 4 := by
  obtain ⟨s, hs⟩ : ∃ s, marshalType outerFix .object [] = .ok s := ⟨_, rfl⟩
  have hp := marshalType_propertyOrdering outerFix .object [] s hs
  refine ⟨s, hs, ?_, ?_, rfl⟩
  · rw [hp.1]; rfl
  · rw [hp.2]; rfl

/-- Inserting into a Properties map keeps the inserted key present. -/
theorem mem_keys_insert_self :
    ∀ (props : SchemaProps) (k : String) (v : Schema), k ∈ (props.insert k v).keys
  | .nil, k, v => by simp [SchemaProps.insert, SchemaProps.keys]
  | .cons k0 v0 rest, k, v => by
    by_cases hk : k0 = k
    · simp [SchemaProps.insert, hk, SchemaProps.keys]
    · simp only [SchemaProps.insert, if_neg hk, SchemaProps.keys, List.mem_cons]
      exact Or.inr (mem_keys_insert_self rest k v)

/-- Insertion never removes a key. -/
theorem mem_keys_insert_of_mem :
    ∀ (props : SchemaProps) (k : String) (v : Schema) (key : String),
      key ∈ props.keys → key ∈ (props.insert k v).keys
  | .nil, k, v, key, h => by simp [SchemaProps.keys] at h
  | .cons k0 v0 rest, k, v, key, h => by
    simp only [SchemaProps.keys, List.mem_cons] at h
    by_cases hk : k0 = k
    · simp only [SchemaProps.insert, if_pos hk, SchemaProps.keys, List.mem_cons]
      rcases h with h | h
      · exact Or.inl (h.trans hk)
      · exact Or.inr h
    · simp only [SchemaProps.insert, if_neg hk, SchemaProps.keys, List.mem_cons]
      rcases h with h | h
      · exact Or.inl h
      · exact Or.inr (mem_keys_insert_of_mem rest k v key h)

/-- maps.Copy never removes a key of the destination. -/
theorem mem_keys_copyFrom_left :
    ∀ (src dst : SchemaProps) (key : String),
      key ∈ dst.keys → key ∈ (dst.copyFrom src).keys
  | .nil, _, _, h => h
  | .cons k v rest, dst, key, h =>
    mem_keys_copyFrom_left rest (dst.insert k v) key (mem_keys_insert_of_mem dst k v key h)

/-- maps.Copy brings every key of the source into the destination. -/
theorem mem_keys_copyFrom_right :
    ∀ (src dst : SchemaProps) (key : String),
      key ∈ src.keys → key ∈ (dst.copyFrom src).keys
  | .nil, dst, key, h => by simp [SchemaProps.keys] at h
  | .cons k v rest, dst, key, h => by
    simp only [SchemaProps.keys, List.mem_cons] at h
    rcases h with h | h
    · subst h
      exact mem_keys_copyFrom_left rest (dst.insert key v) key (mem_keys_insert_self dst key v)
    · exact mem_keys_copyFrom_right rest (dst.insert k v) key h

/-- Insertion of an invariant-satisfying node preserves the properties
invariant. -/
theorem schemaPropsInvB_insert :
    ∀ (props : SchemaProps) (k : String) (v : Schema),
      schemaPropsInvB props = true → schemaInvB v = true →
      schemaPropsInvB (props.insert k v) = true
  | .nil, k, v, hp, hv => by simp [SchemaProps.insert, schemaPropsInvB, hv]
  | .cons k0 v0 rest, k, v, hp, hv => by
    simp only [schemaPropsInvB, Bool.and_eq_true] at hp
    by_cases hk : k0 = k
    · simp [SchemaProps.insert, hk, schemaPropsInvB, hv, hp.2]
    · simp only [SchemaProps.insert, if_neg hk, schemaPropsInvB, Bool.and_eq_true]
      exact ⟨hp.1, schemaPropsInvB_insert rest k v hp.2 hv⟩

/-- maps.Copy of invariant-satisfying properties preserves the properties
invariant. -/
theorem schemaPropsInvB_copyFrom :
    ∀ (src dst : SchemaProps),
      schemaPropsInvB dst = true → schemaPropsInvB src = true →
      schemaPropsInvB (dst.copyFrom src) = true
  | .nil, dst, hd, hs => hd
  | .cons k v rest, dst, hd, hs => by
    simp only [schemaPropsInvB, Bool.and_eq_true] at hs
    exact schemaPropsInvB_copyFrom rest (dst.insert k v)
      (schemaPropsInvB_insert dst k v hd hs.1) hs.2

/-- Every element of lo.Uniq's output occurs in its input. -/
theorem uniqAux_mem :
    ∀ (l : List String) (seen : List String) (x : String), x ∈ uniqAux seen l → x ∈ l
  | [], seen, x, h => by simp [uniqAux] at h
  | y :: rest, seen, x, h => by
    simp only [uniqAux] at h
    by_cases hy : y ∈ seen
    · rw [if_pos hy] at h
      exact List.mem_cons_of_mem y (uniqAux_mem rest seen x h)
    · rw [if_neg hy] at h
      rcases List.mem_cons.mp h with h | h
      · exact h ▸ List.mem_cons_self y rest
      · exact List.mem_cons_of_mem y (uniqAux_mem rest (seen ++ [y]) x h)

/-- lo.Uniq produces no duplicates, and nothing already seen. -/
theorem uniqAux_nodup :
    ∀ (l : List String) (seen : List String),
      listNodupB (uniqAux seen l) = true ∧ ∀ x ∈ uniqAux seen l, x ∉ seen
  | [], seen => by simp [uniqAux, listNodupB]
  | y :: rest, seen => by
    by_cases hy : y ∈ seen
    · simp only [uniqAux, if_pos hy]
      exact uniqAux_nodup rest seen
    · simp only [uniqAux, if_neg hy]
      obtain ⟨hnd, hns⟩ := uniqAux_nodup rest (seen ++ [y])
      refine ⟨?_, ?_⟩
      · simp only [listNodupB]
        rw [if_neg ?_]
        · exact hnd
        · intro hmem
          exact hns y hmem (by simp)
      · intro x hx
        rcases List.mem_cons.mp hx with hx | hx
        · exact hx ▸ hy
        · intro hxs
          exact hns x hx (by simp [hxs])

/-- listNodupB and membership of lo.Uniq's output. -/
theorem uniq_nodup (l : List String) : listNodupB (uniq l) = true :=
  (uniqAux_nodup l []).1

theorem uniq_subset (l : List String) (x : String) (h : x ∈ uniq l) : x ∈ l :=
  uniqAux_mem l [] x h

/-- The node invariant ignores format, description and enum. -/
theorem schemaInvB_setFieldMeta (s : Schema) (d f : String) (e : List String) :
    schemaInvB (s.setFieldMeta d f e) = schemaInvB s := by
  obtain ⟨t, f0, d0, n0, e0, i0, p0, r0, po0⟩ := s
  rfl

/-- The node invariant ignores the nullable marker. -/
theorem schemaInvB_setNullable (s : Schema) (v : Option Bool) :
    schemaInvB (s.setNullable v) = schemaInvB s := by
  obtain ⟨t, f0, d0, n0, e0, i0, p0, r0, po0⟩ := s
  rfl

theorem required_setNullable (s : Schema) (v : Option Bool) :
    (s.setNullable v).required = s.required := by
  obtain ⟨t, f0, d0, n0, e0, i0, p0, r0, po0⟩ := s
  rfl

theorem properties_setNullable (s : Schema) (v : Option Bool) :
    (s.setNullable v).properties = s.properties := by
  obtain ⟨t, f0, d0, n0, e0, i0, p0, r0, po0⟩ := s
  rfl

/-- The properties component of the node invariant. -/
theorem schemaInvB_properties (s : Schema) (h : schemaInvB s = true) :
    schemaPropsInvB s.properties = true := by
  obtain ⟨t, f0, d0, n0, e0, i0, p0, r0, po0⟩ := s
  simp only [schemaInvB, Bool.and_eq_true] at h
  exact h.2

/-- The invariant holds for every bare one-type node. -/
theorem schemaInvB_bare (ty : GenaiType) : schemaInvB (bareSchema ty) = true := by
  cases ty <;> rfl

mutual
/-- Every schema node marshalType produces satisfies the tree invariant,
and its own required list only names its own property keys. -/
theorem marshalType_inv :
    ∀ (t : GoType) (pt : GenaiType) (vars : Vars) (s : Schema),
      marshalType t pt vars = .ok s →
      schemaInvB s = true ∧ ∀ r ∈ s.required, r ∈ s.properties.keys
  | .string, pt, vars, s, h => by
    simp only [marshalType, Except.ok.injEq] at h
    subst h
    exact ⟨schemaInvB_bare _, by simp [bareSchema, Schema.required]⟩
  | .bool, pt, vars, s, h => by
    simp only [marshalType, Except.ok.injEq] at h
    subst h
    exact ⟨schemaInvB_bare _, by simp [bareSchema, Schema.required]⟩
  | .int k, pt, vars, s, h => by
    simp only [marshalType, Except.ok.injEq] at h
    subst h
    exact ⟨schemaInvB_bare _, by simp [bareSchema, Schema.required]⟩
  | .float k, pt, vars, s, h => by
    simp only [marshalType, Except.ok.injEq] at h
    subst h
    exact ⟨schemaInvB_bare _, by simp [bareSchema, Schema.required]⟩
  | .unsupported kd tn, pt, vars, s, h => by
    exact absurd h (by simp [marshalType])
  | .ptr e, pt, vars, s, h => by
    rw [marshalType] at h
    cases he : marshalType e pt vars with
    | error err => rw [he] at h; exact absurd h (by simp)
    | ok s0 =>
      rw [he] at h
      simp only [Except.ok.injEq] at h
      subst h
      obtain ⟨h1, h2⟩ := marshalType_inv e pt vars s0 he
      rw [schemaInvB_setNullable, required_setNullable, properties_setNullable]
      exact ⟨h1, h2⟩
  | .slice e, pt, vars, s, h => by
    rw [marshalType] at h
    cases he : marshalType e pt vars with
    | error err => rw [he] at h; exact absurd h (by simp)
    | ok i =>
      rw [he] at h
      simp only [Except.ok.injEq] at h
      subst h
      obtain ⟨h1, _⟩ := marshalType_inv e pt vars i he
      refine ⟨?_, by simp [Schema.required]⟩
      simp [schemaInvB, schemaOptInvB, schemaPropsInvB, h1]
  | .strct nm fs, pt, vars, s, h => by
    rw [marshalType] at h
    by_cases hpt : pt = .object
    · rw [if_neg (by simp [hpt])] at h
      cases hm : marshalFields fs vars .nil [] [] with
      | error err => rw [hm] at h; exact absurd h (by simp)
      | ok triple =>
        obtain ⟨props, ord, req⟩ := triple
        rw [hm] at h
        simp only [Except.ok.injEq] at h
        subst h
        obtain ⟨hpi, hreq⟩ :=
          marshalFields_inv fs vars .nil [] [] (props, ord, req) hm rfl (by simp)
        simp only at hpi hreq
        have hnd : listNodupB (if req.length > 0 then uniq req else req) = true := by
          by_cases hl : req.length > 0
          · simp only [if_pos hl]
            exact uniq_nodup req
          · simp only [if_neg hl]
            have hre : req = [] := List.eq_nil_of_length_eq_zero (by omega)
            rw [hre]
            rfl
        have hsub : ∀ r ∈ (if req.length > 0 then uniq req else req), r ∈ props.keys := by
          intro r hrm
          by_cases hl : req.length > 0
          · rw [if_pos hl] at hrm
            exact hreq r (uniq_subset req r hrm)
          · rw [if_neg hl] at hrm
            exact hreq r hrm
        have hguard :
            (match (if ord.length > 0 then Option.some ord else Option.none) with
              | Option.some l => !l.isEmpty
              | Option.none => true) = true := by
          by_cases hl : ord.length > 0
          · simp only [if_pos hl]
            cases ord with
            | nil => simp at hl
            | cons a as => rfl
          · simp only [if_neg hl]
        constructor
        · have hall : ((if req.length > 0 then uniq req else req).all
              (fun r => decide (r ∈ props.keys))) = true := by
            simp only [List.all_eq_true, decide_eq_true_eq]
            exact hsub
          simp [schemaInvB, schemaOptInvB, hpi, hnd, hguard, hall]
        · simp only [Schema.required, Schema.properties]
          exact hsub
    · rw [if_pos hpt] at h
      simp only [Except.ok.injEq] at h
      subst h
      exact ⟨schemaInvB_bare _, by simp [bareSchema, Schema.required]⟩

/-- The field loop preserves the properties invariant and the
required-names-are-keys invariant of its accumulators. -/
theorem marshalFields_inv :
    ∀ (fs : GoFields) (vars : Vars) (props : SchemaProps) (ord req : List String)
      (res : SchemaProps × List String × List String),
      marshalFields fs vars props ord req = .ok res →
      schemaPropsInvB props = true → (∀ r ∈ req, r ∈ props.keys) →
      schemaPropsInvB res.1 = true ∧ ∀ r ∈ res.2.2, r ∈ res.1.keys
  | .nil, vars, props, ord, req, res, h, hp, hr => by
    simp only [marshalFields, Except.ok.injEq] at h
    subst h
    exact ⟨hp, hr⟩
  | .cons (.mk fname fexp fanon ftag ftype) rest, vars, props, ord, req, res, h, hp, hr => by
    rw [marshalFields] at h
    by_cases hexp : fexp = false
    · rw [if_pos hexp] at h
      exact marshalFields_inv rest vars props ord req res h hp hr
    · rw [if_neg hexp] at h
      by_cases hanon : fanon = true
      · rw [if_pos hanon] at h
        cases hemb : marshalType ftype .object vars with
        | error e => simp only [hemb] at h; exact absurd h (by simp)
        | ok embedded =>
          simp only [hemb] at h
          obtain ⟨hei, her⟩ := marshalType_inv ftype .object vars embedded hemb
          refine marshalFields_inv rest vars _ _ _ res h ?_ ?_
          · exact schemaPropsInvB_copyFrom embedded.properties props hp
              (schemaInvB_properties embedded hei)
          · intro r hrr
            by_cases hl : embedded.required.length > 0
            · rw [if_pos hl] at hrr
              rcases List.mem_append.mp hrr with hrr | hrr
              · exact mem_keys_copyFrom_left embedded.properties props r (hr r hrr)
              · exact mem_keys_copyFrom_right embedded.properties props r (her r hrr)
            · rw [if_neg hl] at hrr
              exact mem_keys_copyFrom_left embedded.properties props r (hr r hrr)
      · rw [if_neg hanon] at h
        cases hpp : parseFieldParams ftag with
        | error e => simp only [hpp] at h; exact absurd h (by simp)
        | ok ofp =>
          simp only [hpp] at h
          cases ofp with
          | none => exact marshalFields_inv rest vars props ord req res h hp hr
          | some fp0 =>
            cases hms : marshalType ftype fp0.type vars with
            | error e => simp only [hms] at h; exact absurd h (by simp)
            | ok fsch =>
              simp only [hms] at h
              cases hv : validateMarshaledFieldType fsch fp0 with
              | error e => simp only [hv] at h; exact absurd h (by simp)
              | ok u =>
                simp only [hv] at h
                cases hr2 : renderDescription fp0 vars with
                | mk text err =>
                  cases err with
                  | some e => simp only [hr2] at h; exact absurd h (by simp)
                  | none =>
                    simp only [hr2] at h
                    obtain ⟨hfi, _⟩ := marshalType_inv ftype fp0.type vars fsch hms
                    refine marshalFields_inv rest vars _ _ _ res h ?_ ?_
                    · exact schemaPropsInvB_insert props fp0.name _ hp
                        (by rw [schemaInvB_setFieldMeta]; exact hfi)
                    · intro r hrr
                      by_cases hreq0 : fp0.isRequired = true
                      · rw [if_pos hreq0] at hrr
                        rcases List.mem_append.mp hrr with hrr | hrr
                        · exact mem_keys_insert_of_mem props fp0.name _ r (hr r hrr)
                        · have hre : r = fp0.name := by simpa using hrr
                          rw [hre]
                          exact mem_keys_insert_self props fp0.name _
                      · rw [if_neg hreq0] at hrr
                        exact mem_keys_insert_of_mem props fp0.name _ r (hr r hrr)
end

/-- Claim C8: in every successfully derived schema tree, every object
node's required list has no duplicate entries, every name in it is a key of
that node's properties map, and propertyOrdering is set only when
non-empty — checked recursively over the whole tree by schemaInvB. -/
theorem marshalType_schemaInv (t : GoType) (pt : GenaiType) (vars : Vars)
    (s : Schema) (h : marshalType t pt vars = .ok s) :
    schemaInvB s = true ∧ ∀ r ∈ s.required, r ∈ s.properties.keys :=
  marshalType_inv t pt vars s h

/-- Witness for C8: a struct whose own required field name collides with a
required name of its embedded struct derives a tree whose required list is
deduplicated to one entry that is a key of the properties map, while the
tree invariant holds everywhere. -/
theorem marshalType_schemaInv_witness :
    marshalType dupFix .object [] =
      .ok (.mk .object "" "" Option.none [] .none
        (.cons "a1" (.mk .string "" "" Option.none [] .none .nil [] Option.none)
          (.cons "a2" (.mk .boolean "" "" Option.none [] .none .nil [] Option.none) .nil))
        ["a1"] (Option.some ["a1", "a2", "a1"])) ∧
    schemaInvB (.mk .object "" "" Option.none [] .none
        (.cons "a1" (.mk .string "" "" Option.none [] .none .nil [] Option.none)
          (.cons "a2" (.mk .boolean "" "" Option.none [] .none .nil [] Option.none) .nil))
        ["a1"] (Option.some ["a1", "a2", "a1"])) = true :=
  ⟨rfl, (marshalType_schemaInv dupFix .object [] _ rfl).1⟩

/-- Claim C6: the emitted format of an annotated field follows the
precedence: a non-empty explicit third positional token always wins, then a
non-empty enum list gives "enum", then declared kind Number gives "float",
otherwise no format is set. -/
theorem parseFieldParams_format_precedence (tag : StructTag) (fp : FieldParams)
    (h : parseFieldParams tag = .ok (Option.some fp)) :
    fp.format =
      (if (strippedParts (splitComma tag.prompt)).length > 2 ∧
          (strippedParts (splitComma tag.prompt)).getD 2 "" ≠ "" then
        Option.some ((strippedParts (splitComma tag.prompt)).getD 2 "")
      else if fp.enum ≠ [] then Option.some "enum"
      else if fp.type = .number then Option.some "float"
      else Option.none) := by
  simp only [parseFieldParams] at h
  rw [show (if decide ("required" ∈ splitComma tag.prompt) = true then
        (splitComma tag.prompt).filter (fun p => p ≠ "required")
      else splitComma tag.prompt) = strippedParts (splitComma tag.prompt) from by
        simp only [strippedParts, decide_eq_true_eq]] at h
  split at h
  · exact absurd h (by simp)
  · split at h
    · exact absurd h (by simp)
    · split at h
      · exact absurd h (by simp)
      · rename_i x fieldType heq
        simp only [Except.ok.injEq, Option.some.injEq] at h
        subst h
        by_cases hl : (strippedParts (splitComma tag.prompt)).length > 2 <;>
          by_cases hf : (strippedParts (splitComma tag.prompt)).getD 2 "" = "" <;>
            by_cases henum : parseCommaSeparated tag.prompt_enum = [] <;>
              by_cases htype : fieldType = GenaiType.number <;>
                (simp_all; try rw [if_neg (by omega)])

/-- Witness for C6 at concrete tags: an explicit format wins over an enum,
an enum with no explicit format gives "enum", a Number kind with neither
gives "float", and a String kind with neither gives no format. -/
theorem parseFieldParams_format_precedence_witness :
    (∀ fp, parseFieldParams ⟨"f,string,date,required", "a,b", "", ""⟩ =
      .ok (Option.some fp) → fp.format = Option.some "date") ∧
    (∀ fp, parseFieldParams ⟨"f,string", "a,b", "", ""⟩ =
      .ok (Option.some fp) → fp.format = Option.some "enum") ∧
    (∀ fp, parseFieldParams ⟨"f,number", "", "", ""⟩ =
      .ok (Option.some fp) → fp.format = Option.some "float") ∧
    (∀ fp, parseFieldParams ⟨"f,string", "", "", ""⟩ =
      .ok (Option.some fp) → fp.format = Option.none) := by
  refine ⟨?_, ?_, ?_, ?_⟩
  · intro fp h
    have h2 : parseFieldParams ⟨"f,string,date,required", "a,b", "", ""⟩ =
        .ok (Option.some ⟨"f", .string, Option.some "date", ["a", "b"], "", [], true⟩) := rfl
    rw [h2] at h
    simp only [Except.ok.injEq, Option.some.injEq] at h
    subst h
    exact (parseFieldParams_format_precedence _ _ h2).trans (by decide)
  · intro fp h
    have h2 : parseFieldParams ⟨"f,string", "a,b", "", ""⟩ =
        .ok (Option.some ⟨"f", .string, Option.some "enum", ["a", "b"], "", [], false⟩) := rfl
    rw [h2] at h
    simp only [Except.ok.injEq, Option.some.injEq] at h
    subst h
    exact (parseFieldParams_format_precedence _ _ h2).trans (by decide)
  · intro fp h
    have h2 : parseFieldParams ⟨"f,number", "", "", ""⟩ =
        .ok (Option.some ⟨"f", .number, Option.some "float", [], "", [], false⟩) := rfl
    rw [h2] at h
    simp only [Except.ok.injEq, Option.some.injEq] at h
    subst h
    exact (parseFieldParams_format_precedence _ _ h2).trans (by decide)
  · intro fp h
    have h2 : parseFieldParams ⟨"f,string", "", "", ""⟩ =
        .ok (Option.some ⟨"f", .string, Option.none, [], "", [], false⟩) := rfl
    rw [h2] at h
    simp only [Except.ok.injEq, Option.some.injEq] at h
    subst h
    exact (parseFieldParams_format_precedence _ _ h2).trans (by decide)

/-- Witness for C10 at a concrete struct: the pointer call returns the root
object node with nullable true, the plain call the same node with nullable
unset. -/
theorem marshalResponseSchema_ptr_root_witness :
    MarshalResponseSchema
        (Option.some (.ptr (.strct "Inner"
          (.cons (.mk "A1" true false ⟨"a1,string,required", "", "", ""⟩ .string)
            (.cons (.mk "A2" true false ⟨"a2,bool", "", "", ""⟩ .bool) .nil))))) [] =
      .ok ((.mk .object "" "" Option.none [] .none
        (.cons "a1" (.mk .string "" "" Option.none [] .none .nil [] Option.none)
          (.cons "a2" (.mk .boolean "" "" Option.none [] .none .nil [] Option.none) .nil))
        ["a1"] (Option.some ["a1", "a2"]) : Schema).setNullable (Option.some true)) ∧
    MarshalResponseSchema
        (Option.some (.strct "Inner"
          (.cons (.mk "A1" true false ⟨"a1,string,required", "", "", ""⟩ .string)
            (.cons (.mk "A2" true false ⟨"a2,bool", "", "", ""⟩ .bool) .nil)))) [] =
      .ok (.mk .object "" "" Option.none [] .none
        (.cons "a1" (.mk .string "" "" Option.none [] .none .nil [] Option.none)
          (.cons "a2" (.mk .boolean "" "" Option.none [] .none .nil [] Option.none) .nil))
        ["a1"] (Option.some ["a1", "a2"])) := by
  have h := marshalResponseSchema_ptr_root "Inner"
    (.cons (.mk "A1" true false ⟨"a1,string,required", "", "", ""⟩ .string)
      (.cons (.mk "A2" true false ⟨"a2,bool", "", "", ""⟩ .bool) .nil)) []
    (.mk .object "" "" Option.none [] .none
      (.cons "a1" (.mk .string "" "" Option.none [] .none .nil [] Option.none)
        (.cons "a2" (.mk .boolean "" "" Option.none [] .none .nil [] Option.none) .nil))
      ["a1"] (Option.some ["a1", "a2"])) rfl
  exact ⟨h.1, h.2.2.1⟩

end Prompterizer
